import Mathlib

/-!
Verification of the enrichment pipeline in
`src/Scripts/AIGenerated/enrich_with_metadata.py`.

Text is modelled as `List Char`.  Python's `json.loads` is modelled by an
executable recursive-descent parser (`jsonParse`) over a `JValue` type that
mirrors the JSON data model; numeric literals are kept as their lexemes
(Python converts them to `int`/`float`, which the claims never depend on).
Python `dict`s are insertion-ordered association lists with unique keys;
`dict.__setitem__` is `dictSet` (update in place, append when fresh).
-/

set_option linter.unusedVariables false

/-! ### Character classes and Python string helpers -/

/-- JSON whitespace (the characters `json.loads` skips between tokens). -/
def isJsonWs (c : Char) : Bool := c == '\n' || c == ' ' || c == '\r' || c == '\t'

/-- The ASCII whitespace stripped by Python `str.strip()` (the full Python set
also holds further Unicode space characters, which never occur here). -/
def isPyWs (c : Char) : Bool :=
  c == '\x0b' || c == '\x0c' || c == '\n' || c == ' ' || c == '\r' || c == '\t'

/-- Skip leading JSON whitespace. -/
def skipWs (s : List Char) : List Char := s.dropWhile isJsonWs

/-- Python `str.strip()`: drop whitespace from both ends. -/
def pyStrip (s : List Char) : List Char :=
  ((s.dropWhile isPyWs).reverse.dropWhile isPyWs).reverse

/-- Python `s.startswith(p)` (first argument is the string, second the pattern). -/
def hasPref : List Char → List Char → Bool
  | _, [] => true
  | [], _ :: _ => false
  | c :: cs, p :: ps => c == p && hasPref cs ps

/-- Python `s.endswith(p)`. -/
def hasSuf (s p : List Char) : Bool := hasPref s.reverse p.reverse

/-- Python `s.split('\n')`: never empty, `''.split('\n') == ['']`. -/
def splitNl : List Char → List (List Char)
  | [] => [[]]
  | c :: cs =>
    if c = '\n' then [] :: splitNl cs
    else
      match splitNl cs with
      | [] => [[c]]
      | h :: t => (c :: h) :: t

/-- Python `'\n'.join(lines)`. -/
def joinNl : List (List Char) → List Char
  | [] => []
  | [l] => l
  | l :: ls => l ++ '\n' :: joinNl ls

/-- Python `needle in haystack` substring test (first argument the needle). -/
def strHasSub (nd : List Char) : List Char → Bool
  | [] => hasPref [] nd
  | c :: t => hasPref (c :: t) nd || strHasSub nd t

/-! ### JSON values and Python dict semantics -/

/-- A decoded JSON value.  `num` keeps the numeric lexeme verbatim. -/
inductive JValue where
  | null
  | bool (b : Bool)
  | num (lit : String)
  | str (s : String)
  | arr (elems : List JValue)
  | obj (fields : List (String × JValue))

/-- Python dict lookup `d[k]` / `d.get(k)` on an insertion-ordered dict. -/
def lookupJ (k : String) : List (String × JValue) → Option JValue
  | [] => none
  | (k', v) :: t => if k' = k then some v else lookupJ k t

/-- Python `k in d` for dicts. -/
def hasKeyJ (k : String) (d : List (String × JValue)) : Bool := (lookupJ k d).isSome

/-- Python `d[k] = v`: update in place when the key exists, else append. -/
def dictSet : List (String × JValue) → String → JValue → List (String × JValue)
  | [], k, v => [(k, v)]
  | (k', v') :: t, k, v => if k' = k then (k, v) :: t else (k', v') :: dictSet t k v

/-! ### The model of `json.loads` -/

/-- Hex digit value, for `\uXXXX` escapes. -/
def hexVal (c : Char) : Option Nat :=
  match Nat.decLt c.toNat 58, Nat.decLt c.toNat 71, Nat.decLt c.toNat 103 with
  | isTrue _, _, _ => if 48 ≤ c.toNat then some (c.toNat - 48) else none
  | _, isTrue _, _ => if 65 ≤ c.toNat then some (c.toNat - 55) else none
  | _, _, isTrue _ => if 97 ≤ c.toNat then some (c.toNat - 87) else none
  | _, _, _ => none

/-- Single-character JSON string escapes. -/
def escChar : Char → Option Char
  | '"' => some '"'
  | '\\' => some '\\'
  | '/' => some '/'
  | 'b' => some '\x08'
  | 'f' => some '\x0c'
  | 'n' => some '\n'
  | 'r' => some '\r'
  | 't' => some '\t'
  | _ => none

/-- Parse a JSON string body after the opening quote; returns the decoded
content and the input remaining after the closing quote.  Control characters
below 0x20 are rejected (`json.loads` strict mode); `\uXXXX` decodes through
`Char.ofNat` (lone surrogates, which Lean `Char` cannot hold, are not
modelled). -/
def parseStringBody : List Char → Option (List Char × List Char)
  | [] => none
  | c :: cs =>
    if c == '"' then some ([], cs)
    else if c == '\\' then
      match cs with
      | 'u' :: h1 :: h2 :: h3 :: h4 :: cs2 =>
        match hexVal h1, hexVal h2, hexVal h3, hexVal h4 with
        | some a, some b, some d, some e =>
          match parseStringBody cs2 with
          | some (content, rest) =>
            some (Char.ofNat (((a * 16 + b) * 16 + d) * 16 + e) :: content, rest)
          | none => none
        | _, _, _, _ => none
      | e :: cs2 =>
        match escChar e with
        | some d =>
          match parseStringBody cs2 with
          | some (content, rest) => some (d :: content, rest)
          | none => none
        | none => none
      | [] => none
    else if c.toNat < 32 then none
    else
      match parseStringBody cs with
      | some (content, rest) => some (c :: content, rest)
      | none => none

/-- Maximal run of decimal digits. -/
def numDigits (s : List Char) : List Char × List Char :=
  (s.takeWhile Char.isDigit, s.dropWhile Char.isDigit)

/-- The integer part of the JSON number grammar `0|[1-9][0-9]*`. -/
def parseIntPart : List Char → Option (List Char × List Char)
  | [] => none
  | c :: cs =>
    if c == '0' then some (['0'], cs)
    else if c.isDigit then
      let (ds, r) := numDigits cs
      some (c :: ds, r)
    else none

/-- The optional fraction part `\.[0-9]+`; returns `[]` when absent. -/
def parseFracPart (s : List Char) : List Char × List Char :=
  match s with
  | '.' :: c :: cs =>
    if c.isDigit then
      let (ds, r) := numDigits cs
      ('.' :: c :: ds, r)
    else ([], s)
  | _ => ([], s)

/-- The optional exponent part `[eE][-+]?[0-9]+`; returns `[]` when absent. -/
def parseExpPart (s : List Char) : List Char × List Char :=
  match s with
  | [] => ([], s)
  | c :: rest =>
    if c == 'e' || c == 'E' then
      match rest with
      | [] => ([], s)
      | d :: cs =>
        if d.isDigit then
          let (ds, r) := numDigits cs
          (c :: d :: ds, r)
        else if d == '+' || d == '-' then
          match cs with
          | [] => ([], s)
          | d2 :: cs2 =>
            if d2.isDigit then
              let (ds, r) := numDigits cs2
              (c :: d :: d2 :: ds, r)
            else ([], s)
        else ([], s)
    else ([], s)

/-- The JSON number token, maximal-munch as Python's `NUMBER_RE`. -/
def parseNumber (s : List Char) : Option (List Char × List Char) :=
  match s with
  | '-' :: t =>
    match parseIntPart t with
    | some (ip, r1) =>
      let (fp, r2) := parseFracPart r1
      let (ep, r3) := parseExpPart r2
      some ('-' :: (ip ++ fp ++ ep), r3)
    | none => none
  | _ =>
    match parseIntPart s with
    | some (ip, r1) =>
      let (fp, r2) := parseFracPart r1
      let (ep, r3) := parseExpPart r2
      some (ip ++ fp ++ ep, r3)
    | none => none

mutual

/-- Parse one JSON value at the head of the input (no leading whitespace).
The fuel argument only bounds recursion depth; `jsonParse` supplies enough for
any input.  Mirrors Python's scanner: strings, objects, arrays, the literals
`true`/`false`/`null` and the constants `NaN`/`Infinity`/`-Infinity`, then the
number token. -/
def parseValue : Nat → List Char → Option (JValue × List Char)
  | 0, _ => none
  | _ + 1, [] => none
  | fuel + 1, c :: cs =>
    if c == '"' then
      match parseStringBody cs with
      | some (content, rest) => some (.str (String.mk content), rest)
      | none => none
    else if c == '\x7b' then
      let s1 := skipWs cs
      match s1 with
      | '\x7d' :: rest => some (.obj [], rest)
      | _ => parseMembers fuel [] s1
    else if c == '[' then
      let s1 := skipWs cs
      match s1 with
      | ']' :: rest => some (.arr [], rest)
      | _ =>
        match parseValue fuel s1 with
        | some (v, r) => parseElems fuel [v] (skipWs r)
        | none => none
    else if hasPref (c :: cs) ("true".data) then some (.bool true, (c :: cs).drop 4)
    else if hasPref (c :: cs) ("false".data) then some (.bool false, (c :: cs).drop 5)
    else if hasPref (c :: cs) ("null".data) then some (.null, (c :: cs).drop 4)
    else if hasPref (c :: cs) ("NaN".data) then some (.num "NaN", (c :: cs).drop 3)
    else if hasPref (c :: cs) ("Infinity".data) then some (.num "Infinity", (c :: cs).drop 8)
    else if hasPref (c :: cs) ("-Infinity".data) then some (.num "-Infinity", (c :: cs).drop 9)
    else
      match parseNumber (c :: cs) with
      | some (lex, rest) => some (.num (String.mk lex), rest)
      | none => none

/-- Parse the members of a non-empty object, positioned at a key.  Duplicate
keys overwrite in place (`dict` semantics), as in `json.loads`. -/
def parseMembers : Nat → List (String × JValue) → List Char → Option (JValue × List Char)
  | 0, _, _ => none
  | _ + 1, _, [] => none
  | fuel + 1, acc, c :: cs =>
    if c == '"' then
      match parseStringBody cs with
      | some (keyContent, r1) =>
        match skipWs r1 with
        | ':' :: r2 =>
          match parseValue fuel (skipWs r2) with
          | some (v, r3) =>
            match skipWs r3 with
            | ',' :: r4 => parseMembers fuel (dictSet acc (String.mk keyContent) v) (skipWs r4)
            | '\x7d' :: r4 => some (.obj (dictSet acc (String.mk keyContent) v), r4)
            | _ => none
          | none => none
        | _ => none
      | none => none
    else none

/-- Parse the continuation of a non-empty array, positioned at `,` or `]`. -/
def parseElems : Nat → List JValue → List Char → Option (JValue × List Char)
  | 0, _, _ => none
  | _ + 1, _, [] => none
  | fuel + 1, acc, c :: cs =>
    if c == ',' then
      match parseValue fuel (skipWs cs) with
      | some (v, r2) => parseElems fuel (acc ++ [v]) (skipWs r2)
      | none => none
    else if c == ']' then some (.arr acc, cs)
    else none

end

/-- The model of `json.loads`: skip leading whitespace, parse one value,
require the remainder to be whitespace only.  `none` models
`json.JSONDecodeError`.  Every fuel decrement in `parseValue` is preceded by
at least one consumed character, so `length + 1` fuel always suffices. -/
def jsonParse (s : List Char) : Option JValue :=
  let s1 := skipWs s
  match parseValue (s1.length + 1) s1 with
  | some (v, rest) => if (skipWs rest).isEmpty then some v else none
  | none => none

example : jsonParse ("null".data) = some JValue.null := by rfl
example : jsonParse (" \x7b \x7d ".data) = some (JValue.obj []) := by rfl
example :
    jsonParse ("\x7b\"entries\": [1, \"a\"]\x7d".data)
      = some (JValue.obj [("entries", JValue.arr [JValue.num "1", JValue.str "a"])]) := by rfl
example : jsonParse ("[true, -1.5e2]".data)
      = some (JValue.arr [JValue.bool true, JValue.num "-1.5e2"]) := by rfl
example : jsonParse ("```".data) = none := by rfl
example : jsonParse ("\"a\\u0041\\n\"".data) = some (JValue.str "aA\n") := by rfl
example : jsonParse ("\x7b\"a\": 1, \"a\": 2\x7d".data)
      = some (JValue.obj [("a", JValue.num "2")]) := by rfl

/-! ### The pipeline (`parse_sloka_with_claude`, `enrich_yaml`, `main`) -/

/-- The Python exceptions the driver can meet. `generic` stands for any
exception raised by the model invocation (auth, quota, network). -/
inductive PyErr where
  | attributeError
  | typeError
  | generic

/-- The `{"entries": []}` result substituted on any per-verse failure. -/
def emptyEntries : JValue := .obj [("entries", .arr [])]

/-- The fence-stripping part of `parse_sloka_with_claude`
(`enrich_with_metadata.py` lines 94-105): strip, remove a generic
triple-backtick block by line slicing when there are more than two lines,
remove a leading ` ```json ` (7 characters), remove a trailing ` ``` `
(3 characters), strip again. -/
def stripFences (t : List Char) : List Char :=
  let t1 := pyStrip t
  let t2 :=
    if hasPref t1 ("```".data) then
      let lines := splitNl t1
      if lines.length > 2 then joinNl ((lines.drop 1).dropLast) else t1
    else t1
  let t3 := if hasPref t2 ("```json".data) then t2.drop 7 else t2
  let t4 := if hasSuf t3 ("```".data) then t3.take (t3.length - 3) else t3
  pyStrip t4

/-- `parse_sloka_with_claude` after the model call: `.error` is an exception
from the call (caught by the final `except Exception`), `.ok text` is the
response text.  `json.JSONDecodeError` and every other exception produce
`{"entries": []}`; the function never raises to its caller. -/
def parse_sloka_with_claude (resp : Except PyErr (List Char)) : JValue :=
  match resp with
  | .error _ => emptyEntries
  | .ok text =>
    match jsonParse (stripFences text) with
    | some v => v
    | none => emptyEntries

/-- The verify-insertion rebuild (`enrich_yaml` lines 149-159), for an entry
dict that contains `'head'`: start from `{'head': entry['head'],
'verify': False}` and re-insert every field whose key is not `'head'` with
Python `dict` update semantics. -/
def rebuildEntry (e : List (String × JValue)) : List (String × JValue) :=
  e.foldl
    (fun acc p => if p.1 ≠ "head" then dictSet acc p.1 p.2 else acc)
    [("head", (lookupJ "head" e).getD JValue.null), ("verify", JValue.bool false)]

/-- One iteration of `for entry in parsed.get('entries', [])`.  Python
semantics for each shape of `entry`: a dict is rebuilt when it has a
`'head'` key; `'head' in s` for a string is a substring test, and a hit makes
`entry['head']` raise `TypeError`; `'head' in l` for a list is membership,
and a hit makes `entry['head']` raise `TypeError`; `'head' in n` for a
number, boolean or `None` raises `TypeError` (not iterable). -/
def enrichEntry (v : JValue) : Except PyErr JValue :=
  match v with
  | .obj kvs => if hasKeyJ "head" kvs then .ok (.obj (rebuildEntry kvs)) else .ok v
  | .str s => if strHasSub ("head".data) s.data then .error .typeError else .ok v
  | .arr l =>
    if l.any (fun x => match x with | .str s => s == "head" | _ => false)
    then .error .typeError else .ok v
  | _ => .error .typeError

/-- Lines 146-160 of `enrich_yaml` for one verse: `parsed.get('entries', [])`
(`AttributeError` when `parsed` is not a dict), iteration with in-place
mutation, and storage of the mutated `parsed`.  When the `entries` value is a
string, iteration yields one-character strings, which can never contain the
four-character substring `'head'`, so nothing is touched; when it is a dict,
iteration yields its keys, and a key containing `'head'` hits
`key['head']`, a `TypeError`; a number, boolean or `None` is not iterable. -/
def driverStep (parsed : JValue) : Except PyErr JValue :=
  match parsed with
  | .obj kvs =>
    match lookupJ "entries" kvs with
    | none => .ok parsed
    | some (.arr l) =>
      match l.mapM enrichEntry with
      | .ok l2 => .ok (.obj (dictSet kvs "entries" (.arr l2)))
      | .error e => .error e
    | some (.str _) => .ok parsed
    | some (.obj inner) =>
      if (inner.map Prod.fst).any (fun k => strHasSub ("head".data) k.data)
      then .error .typeError else .ok parsed
    | some _ => .error .typeError
  | _ => .error .attributeError

/-- The full processing of one verse: model call (the oracle), response
parsing, verify insertion. -/
def stepVal (oracle : String → Except PyErr (List Char)) (v : String) : Except PyErr JValue :=
  driverStep (parse_sloka_with_claude (oracle v))

/-- The `for i, (sloka, metadata) in enumerate(data.items(), 1)` loop of
`enrich_yaml`: values of the input mapping are never read; an uncaught
exception aborts the whole loop. -/
def runDriver (oracle : String → Except PyErr (List Char)) :
    List (String × JValue) → Except PyErr (List (String × JValue))
  | [] => .ok []
  | (s, _) :: rest =>
    match stepVal oracle s with
    | .error e => .error e
    | .ok v =>
      match runDriver oracle rest with
      | .error e => .error e
      | .ok out => .ok ((s, v) :: out)

/-- Observable outcome of a run: a `sys.exit`/fall-through with an exit code
and the enriched mapping (when one was produced), or an uncaught Python
exception (which CPython turns into a traceback and a non-zero process
status). -/
inductive RunOutcome where
  | exited (code : Nat) (out : Option (List (String × JValue)))
  | crashed (e : PyErr)

/-- `main` plus `enrich_yaml`: exit 1 when the input file is missing
(`main` lines 208-211) or when client construction fails (`enrich_yaml`
lines 132-139); otherwise run the per-verse loop and fall through to exit 0,
unless an uncaught exception aborts the run. -/
def runMain (inputExists clientOk : Bool) (oracle : String → Except PyErr (List Char))
    (data : List (String × JValue)) : RunOutcome :=
  if !inputExists then .exited 1 none
  else if !clientOk then .exited 1 none
  else
    match runDriver oracle data with
    | .ok out => .exited 0 (some out)
    | .error e => .crashed e

/-- Modelled from the spec for the refinement comparison of claim C6: the
response parser as it would behave under "generic-fence stripping alone",
that is, with the `startswith('```json')` step removed and everything else
unchanged. -/
def stripFencesGenericOnly (t : List Char) : List Char :=
  let t1 := pyStrip t
  let t2 :=
    if hasPref t1 ("```".data) then
      let lines := splitNl t1
      if lines.length > 2 then joinNl ((lines.drop 1).dropLast) else t1
    else t1
  let t4 := if hasSuf t2 ("```".data) then t2.take (t2.length - 3) else t2
  pyStrip t4

/-- The response parser with only the generic fence handling (see
`stripFencesGenericOnly`). -/
def parse_sloka_generic_only (resp : Except PyErr (List Char)) : JValue :=
  match resp with
  | .error _ => emptyEntries
  | .ok text =>
    match jsonParse (stripFencesGenericOnly text) with
    | some v => v
    | none => emptyEntries

example :
    parse_sloka_with_claude (.ok ("```\n\x7b\"entries\": []\x7d\n```".data)) = emptyEntries := by rfl
example :
    parse_sloka_with_claude (.ok ("```json\n[1]\n```".data)) = JValue.arr [JValue.num "1"] := by rfl
example : parse_sloka_with_claude (.ok ("garbage".data)) = emptyEntries := by rfl
example : parse_sloka_with_claude (.error .generic) = emptyEntries := by rfl
example :
    driverStep (JValue.obj [("entries", JValue.arr [JValue.obj [("head", JValue.str "x"),
        ("gender", JValue.str "m")]])])
      = .ok (JValue.obj [("entries", JValue.arr [JValue.obj [("head", JValue.str "x"),
        ("verify", JValue.bool false), ("gender", JValue.str "m")]])]) := by rfl
example : driverStep (JValue.arr [JValue.num "1"]) = .error .attributeError := by rfl
example :
    runMain true true (fun _ => .ok ("\x7b\"entries\": []\x7d".data)) [("क", JValue.null)]
      = .exited 0 (some [("क", emptyEntries)]) := by rfl

/-! ### Utility lemmas about the text helpers -/

theorem dropWhile_append_of_all {p : Char → Bool} {l₁ l₂ : List Char}
    (h : ∀ a ∈ l₁, p a = true) :
    List.dropWhile p (l₁ ++ l₂) = List.dropWhile p l₂ := by
  induction l₁ with
  | nil => rfl
  | cons c t ih =>
    have hc : p c = true := h c (List.mem_cons_self c t)
    simp only [List.cons_append, List.dropWhile_cons, hc, if_true]
    exact ih fun a ha => h a (List.mem_cons_of_mem c ha)

theorem dropWhile_of_head_neg {p : Char → Bool} {l : List Char} {c : Char}
    (h : l.head? = some c) (hc : p c = false) : List.dropWhile p l = l := by
  cases l with
  | nil => simp at h
  | cons a t =>
    simp only [List.head?_cons, Option.some.injEq] at h
    subst h
    simp [List.dropWhile_cons, hc]

theorem skipWs_decomp (s : List Char) :
    ∃ w, s = w ++ skipWs s ∧ ∀ a ∈ w, isJsonWs a = true :=
  ⟨s.takeWhile isJsonWs, (List.takeWhile_append_dropWhile isJsonWs s).symm,
    fun _ ha => List.mem_takeWhile_imp ha⟩

theorem all_of_skipWs_nil {s : List Char} (h : skipWs s = []) :
    ∀ a ∈ s, isJsonWs a = true :=
  List.dropWhile_eq_nil_iff.mp h

theorem hasPref_nil (s : List Char) : hasPref s [] = true := by
  cases s <;> rfl

theorem hasPref_append_self (p r : List Char) : hasPref (p ++ r) p = true := by
  induction p with
  | nil => exact hasPref_nil r
  | cons c t ih => simpa [hasPref] using ih

theorem hasPref_decomp : ∀ {p s : List Char}, hasPref s p = true → s = p ++ s.drop p.length := by
  intro p
  induction p with
  | nil => simp
  | cons pc pt ih =>
    intro s h
    cases s with
    | nil => simp [hasPref] at h
    | cons c cs =>
      simp only [hasPref, Bool.and_eq_true, beq_iff_eq] at h
      obtain ⟨rfl, h2⟩ := h
      simpa using ih h2

theorem hasPref_head {c p : Char} {cs ps : List Char}
    (h : hasPref (c :: cs) (p :: ps) = true) : c = p := by
  simp only [hasPref, Bool.and_eq_true, beq_iff_eq] at h
  exact h.1

theorem hasPref_eq_false_of_head {s : List Char} {c pc : Char} {pt : List Char}
    (hs : s.head? = some c) (hne : c ≠ pc) : hasPref s (pc :: pt) = false := by
  cases s with
  | nil => simp at hs
  | cons a t =>
    simp only [List.head?_cons, Option.some.injEq] at hs
    subst hs
    simp only [hasPref, Bool.and_eq_false_iff]
    left
    simpa using hne

theorem hasSuf_append_self (r p : List Char) : hasSuf (r ++ p) p = true := by
  unfold hasSuf
  rw [List.reverse_append]
  exact hasPref_append_self p.reverse r.reverse

theorem hasSuf_eq_false_of_getLast {s p : List Char} {c pc : Char} {pt : List Char}
    (hp : p.reverse = pc :: pt) (hs : s.getLast? = some c) (hne : c ≠ pc) :
    hasSuf s p = false := by
  unfold hasSuf
  rw [hp]
  exact hasPref_eq_false_of_head (by rw [List.head?_reverse]; exact hs) hne

theorem splitNl_ne_nil (s : List Char) : splitNl s ≠ [] := by
  cases s with
  | nil => simp [splitNl]
  | cons c cs =>
    simp only [splitNl]
    split
    · simp
    · split <;> simp

theorem splitNl_cons_nl (cs : List Char) : splitNl ('\n' :: cs) = [] :: splitNl cs := by
  simp [splitNl]

theorem splitNl_cons_ne {c : Char} {cs : List Char} {h0 : List Char} {t0 : List (List Char)}
    (hc : ¬(c = '\n')) (hst : splitNl cs = h0 :: t0) :
    splitNl (c :: cs) = (c :: h0) :: t0 := by
  simp [splitNl, hc, hst]

theorem splitNl_of_not_mem {s : List Char} (h : '\n' ∉ s) : splitNl s = [s] := by
  induction s with
  | nil => rfl
  | cons c cs ih =>
    have hc : ¬(c = '\n') := fun hh => h (hh ▸ List.mem_cons_self c cs)
    have hcs : '\n' ∉ cs := fun hh => h (List.mem_cons_of_mem c hh)
    rw [splitNl_cons_ne hc (ih hcs)]

theorem splitNl_append_left {x : List Char} (y : List Char) (h : '\n' ∉ x) :
    splitNl (x ++ '\n' :: y) = x :: splitNl y := by
  induction x with
  | nil => exact splitNl_cons_nl y
  | cons c t ih =>
    have hc : ¬(c = '\n') := fun hh => h (hh ▸ List.mem_cons_self c t)
    have ht : '\n' ∉ t := fun hh => h (List.mem_cons_of_mem c hh)
    rw [List.cons_append, splitNl_cons_ne hc (ih ht)]

theorem splitNl_append_right (x : List Char) {z : List Char} (h : '\n' ∉ z) :
    splitNl (x ++ '\n' :: z) = splitNl x ++ [z] := by
  induction x with
  | nil =>
    rw [List.nil_append, splitNl_cons_nl, splitNl_of_not_mem h]
    rfl
  | cons c t ih =>
    by_cases hc : c = '\n'
    · subst hc
      rw [List.cons_append, splitNl_cons_nl, ih, splitNl_cons_nl]
      rfl
    · obtain ⟨h0, t0, hst⟩ := List.exists_cons_of_ne_nil (splitNl_ne_nil t)
      have ih' : splitNl (t ++ '\n' :: z) = h0 :: (t0 ++ [z]) := by
        rw [ih, hst]
        rfl
      rw [List.cons_append, splitNl_cons_ne hc ih', splitNl_cons_ne hc hst]
      rfl

theorem joinNl_cons_cons (l a : List Char) (ls : List (List Char)) :
    joinNl (l :: a :: ls) = l ++ '\n' :: joinNl (a :: ls) := by
  rfl

theorem joinNl_splitNl (s : List Char) : joinNl (splitNl s) = s := by
  induction s with
  | nil => rfl
  | cons c cs ih =>
    obtain ⟨h0, t0, hst⟩ := List.exists_cons_of_ne_nil (splitNl_ne_nil cs)
    by_cases hc : c = '\n'
    · subst hc
      rw [splitNl_cons_nl, hst, joinNl_cons_cons, ← hst, ih]
      rfl
    · rw [splitNl_cons_ne hc hst]
      rw [hst] at ih
      cases t0 with
      | nil =>
        show c :: h0 = c :: cs
        rw [show joinNl [h0] = h0 from rfl] at ih
        rw [ih]
      | cons a b =>
        rw [joinNl_cons_cons] at ih ⊢
        rw [List.cons_append, ih]

theorem pyStrip_sandwich {w₁ C w₂ : List Char} {c₀ c₁ : Char}
    (hw₁ : ∀ a ∈ w₁, isPyWs a = true) (hw₂ : ∀ a ∈ w₂, isPyWs a = true)
    (hh : C.head? = some c₀) (hh0 : isPyWs c₀ = false)
    (hl : C.getLast? = some c₁) (hl1 : isPyWs c₁ = false) :
    pyStrip (w₁ ++ C ++ w₂) = C := by
  have hCne : C ≠ [] := by
    intro hC
    rw [hC] at hh
    simp at hh
  unfold pyStrip
  rw [List.append_assoc, dropWhile_append_of_all hw₁]
  have h1 : List.dropWhile isPyWs (C ++ w₂) = C ++ w₂ := by
    refine dropWhile_of_head_neg ?_ hh0
    rw [List.head?_append]
    rw [hh]
    rfl
  rw [h1, List.reverse_append]
  have h2 : ∀ a ∈ w₂.reverse, isPyWs a = true := fun a ha =>
    hw₂ a (List.mem_reverse.mp ha)
  rw [dropWhile_append_of_all h2]
  have h3 : List.dropWhile isPyWs C.reverse = C.reverse := by
    refine dropWhile_of_head_neg ?_ hl1
    rw [List.head?_reverse]
    exact hl
  rw [h3, List.reverse_reverse]

theorem pyStrip_self {s : List Char} {c₀ c₁ : Char}
    (hh : s.head? = some c₀) (hh0 : isPyWs c₀ = false)
    (hl : s.getLast? = some c₁) (hl1 : isPyWs c₁ = false) :
    pyStrip s = s := by
  have := @pyStrip_sandwich [] s [] c₀ c₁ (by simp) (by simp) hh hh0 hl hl1
  simpa using this

/-! ### Character-class lemmas -/

theorem jsonWs_pyWs {c : Char} (h : isJsonWs c = true) : isPyWs c = true := by
  simp only [isJsonWs, isPyWs, Bool.or_eq_true] at h ⊢
  tauto

theorem pyWs_ne_backtick {c : Char} (h : isPyWs c = true) : ¬(c = '`') := by
  intro hh
  subst hh
  exact absurd h (by decide)

theorem digit_not_pyWs {c : Char} (hd : c.isDigit = true) : isPyWs c = false := by
  by_cases h1 : c = ' '
  · subst h1; exact absurd hd (by decide)
  by_cases h2 : c = '\t'
  · subst h2; exact absurd hd (by decide)
  by_cases h3 : c = '\n'
  · subst h3; exact absurd hd (by decide)
  by_cases h4 : c = '\r'
  · subst h4; exact absurd hd (by decide)
  by_cases h5 : c = '\x0b'
  · subst h5; exact absurd hd (by decide)
  by_cases h6 : c = '\x0c'
  · subst h6; exact absurd hd (by decide)
  simp [isPyWs, h1, h2, h3, h4, h5, h6]

theorem digit_ne_backtick {c : Char} (hd : c.isDigit = true) : ¬(c = '`') := by
  intro hh
  subst hh
  exact absurd hd (by decide)

/-- The characters a successfully parsed JSON value can end with. -/
def termChar (c : Char) : Bool :=
  c == '"' || c == '\x7d' || c == ']' || c == 'e' || c == 'l' || c == 'N' || c == 'y' ||
    c.isDigit

/-- The characters a successfully parsed JSON value can start with. -/
def startChar (c : Char) : Bool :=
  c == '"' || c == '\x7b' || c == '[' || c == 't' || c == 'f' || c == 'n' || c == 'N' ||
    c == 'I' || c == '-' || c.isDigit

theorem termChar_good {c : Char} (h : termChar c = true) :
    isPyWs c = false ∧ ¬(c = '`') := by
  by_cases h1 : c = '"'
  · subst h1; exact ⟨by decide, by decide⟩
  by_cases h2 : c = '\x7d'
  · subst h2; exact ⟨by decide, by decide⟩
  by_cases h3 : c = ']'
  · subst h3; exact ⟨by decide, by decide⟩
  by_cases h4 : c = 'e'
  · subst h4; exact ⟨by decide, by decide⟩
  by_cases h5 : c = 'l'
  · subst h5; exact ⟨by decide, by decide⟩
  by_cases h6 : c = 'N'
  · subst h6; exact ⟨by decide, by decide⟩
  by_cases h7 : c = 'y'
  · subst h7; exact ⟨by decide, by decide⟩
  have hd : c.isDigit = true := by
    simp only [termChar, Bool.or_eq_true, beq_iff_eq] at h
    tauto
  exact ⟨digit_not_pyWs hd, digit_ne_backtick hd⟩

theorem startChar_good {c : Char} (h : startChar c = true) :
    isPyWs c = false ∧ ¬(c = '`') := by
  by_cases h1 : c = '"'
  · subst h1; exact ⟨by decide, by decide⟩
  by_cases h2 : c = '\x7b'
  · subst h2; exact ⟨by decide, by decide⟩
  by_cases h3 : c = '['
  · subst h3; exact ⟨by decide, by decide⟩
  by_cases h4 : c = 't'
  · subst h4; exact ⟨by decide, by decide⟩
  by_cases h5 : c = 'f'
  · subst h5; exact ⟨by decide, by decide⟩
  by_cases h6 : c = 'n'
  · subst h6; exact ⟨by decide, by decide⟩
  by_cases h7 : c = 'N'
  · subst h7; exact ⟨by decide, by decide⟩
  by_cases h8 : c = 'I'
  · subst h8; exact ⟨by decide, by decide⟩
  by_cases h9 : c = '-'
  · subst h9; exact ⟨by decide, by decide⟩
  have hd : c.isDigit = true := by
    simp only [startChar, Bool.or_eq_true, beq_iff_eq] at h
    tauto
  exact ⟨digit_not_pyWs hd, digit_ne_backtick hd⟩

/-! ### Decomposition lemmas for the JSON parser -/

theorem ne_nil_of_getLast?_some {l : List Char} {c : Char} (h : l.getLast? = some c) :
    l ≠ [] := by
  intro hh
  rw [hh] at h
  simp at h

theorem getLast?_pre_append {l : List Char} (pre : List Char) (h : l ≠ []) :
    (pre ++ l).getLast? = l.getLast? :=
  List.getLast?_append_of_ne_nil pre h

theorem psb_decomp_aux (n : Nat) :
    ∀ s content rest : List Char, s.length ≤ n → parseStringBody s = some (content, rest) →
      ∃ C, s = C ++ rest ∧ C ≠ [] ∧ C.getLast? = some '"' := by
  induction n with
  | zero =>
    intro s content rest hlen h
    have hs : s = [] := List.eq_nil_of_length_eq_zero (Nat.le_zero.mp hlen)
    subst hs
    simp [parseStringBody] at h
  | succ n ih =>
    intro s content rest hlen h
    cases s with
    | nil => simp [parseStringBody] at h
    | cons c cs =>
      have hcs : cs.length ≤ n := by
        simp only [List.length_cons] at hlen
        omega
      rw [parseStringBody.eq_def] at h
      dsimp only at h
      by_cases h1 : c == '"'
      · rw [if_pos h1] at h
        have hc : c = '"' := by simpa using h1
        subst hc
        simp only [Option.some.injEq, Prod.mk.injEq] at h
        obtain ⟨-, hrest⟩ := h
        subst hrest
        exact ⟨['"'], rfl, by simp, rfl⟩
      · rw [if_neg h1] at h
        by_cases h2 : c == '\\'
        · rw [if_pos h2] at h
          have hc : c = '\\' := by simpa using h2
          subst hc
          split at h
          · -- cs = 'u' :: a :: b :: d :: e :: cs2
            rename_i a b d e cs2
            split at h
            · rename_i va vb vd ve _ _ _ _
              split at h
              · rename_i content2 rest2 hpsb
                simp only [Option.some.injEq, Prod.mk.injEq] at h
                obtain ⟨-, hrest⟩ := h
                subst hrest
                have hlen2 : cs2.length ≤ n := by
                  simp only [List.length_cons] at hcs
                  omega
                obtain ⟨C', hC, hne, hlast⟩ := ih cs2 content2 rest2 hlen2 hpsb
                refine ⟨'\\' :: 'u' :: a :: b :: d :: e :: C', ?_, by simp, ?_⟩
                · rw [hC]
                  simp
                · show (['\\', 'u', a, b, d, e] ++ C').getLast? = some '"'
                  rw [getLast?_pre_append _ hne]
                  exact hlast
              · exact absurd h (by simp)
            · exact absurd h (by simp)
          · -- cs = e :: cs2, generic escape
            rename_i e cs2 _
            split at h
            · rename_i dch hesc
              split at h
              · rename_i content2 rest2 hpsb
                simp only [Option.some.injEq, Prod.mk.injEq] at h
                obtain ⟨-, hrest⟩ := h
                subst hrest
                have hlen2 : cs2.length ≤ n := by
                  simp only [List.length_cons] at hcs
                  omega
                obtain ⟨C', hC, hne, hlast⟩ := ih cs2 content2 rest2 hlen2 hpsb
                refine ⟨'\\' :: e :: C', ?_, by simp, ?_⟩
                · rw [hC]
                  simp
                · show (['\\', e] ++ C').getLast? = some '"'
                  rw [getLast?_pre_append _ hne]
                  exact hlast
              · exact absurd h (by simp)
            · exact absurd h (by simp)
          · -- cs = []
            exact absurd h (by simp)
        · rw [if_neg h2] at h
          by_cases h3 : c.toNat < 32
          · rw [if_pos h3] at h
            exact absurd h (by simp)
          · rw [if_neg h3] at h
            split at h
            · rename_i content2 rest2 hpsb
              simp only [Option.some.injEq, Prod.mk.injEq] at h
              obtain ⟨-, hrest⟩ := h
              subst hrest
              obtain ⟨C', hC, hne, hlast⟩ := ih cs content2 rest2 hcs hpsb
              refine ⟨c :: C', ?_, by simp, ?_⟩
              · rw [hC]
                simp
              · show ([c] ++ C').getLast? = some '"'
                rw [getLast?_pre_append _ hne]
                exact hlast
            · exact absurd h (by simp)

theorem parseStringBody_decomp {s content rest : List Char}
    (h : parseStringBody s = some (content, rest)) :
    ∃ C, s = C ++ rest ∧ C ≠ [] ∧ C.getLast? = some '"' :=
  psb_decomp_aux s.length s content rest le_rfl h

theorem numDigits_eq {s ds rr : List Char} (h : numDigits s = (ds, rr)) :
    s = ds ++ rr ∧ ∀ a ∈ ds, a.isDigit = true := by
  unfold numDigits at h
  injection h with h1 h2
  subst h1
  subst h2
  exact ⟨(List.takeWhile_append_dropWhile Char.isDigit s).symm,
    fun _ ha => List.mem_takeWhile_imp ha⟩

theorem getLast?_cons_digit {c : Char} {ds : List Char}
    (hc : c.isDigit = true) (hds : ∀ a ∈ ds, a.isDigit = true) :
    ∃ cc, (c :: ds).getLast? = some cc ∧ cc.isDigit = true := by
  induction ds generalizing c with
  | nil => exact ⟨c, rfl, hc⟩
  | cons a t ih =>
    obtain ⟨cc, h1, h2⟩ :=
      ih (hds a (List.mem_cons_self a t)) (fun x hx => hds x (List.mem_cons_of_mem a hx))
    refine ⟨cc, ?_, h2⟩
    rw [List.getLast?_cons_cons]
    exact h1

theorem parseIntPart_decomp {s ip r : List Char} (h : parseIntPart s = some (ip, r)) :
    s = ip ++ r ∧ ∃ cc, ip.getLast? = some cc ∧ cc.isDigit = true := by
  cases s with
  | nil => simp [parseIntPart] at h
  | cons c cs =>
    rw [parseIntPart.eq_def] at h
    dsimp only at h
    by_cases h0 : c == '0'
    · rw [if_pos h0] at h
      have hc : c = '0' := by simpa using h0
      subst hc
      simp only [Option.some.injEq, Prod.mk.injEq] at h
      obtain ⟨hip, hr⟩ := h
      subst hip
      subst hr
      exact ⟨rfl, '0', rfl, by decide⟩
    · rw [if_neg h0] at h
      by_cases h1 : c.isDigit
      · rw [if_pos h1] at h
        obtain ⟨ds, rr, hnd⟩ : ∃ ds rr, numDigits cs = (ds, rr) := ⟨_, _, rfl⟩
        rw [hnd] at h
        simp only [Option.some.injEq, Prod.mk.injEq] at h
        obtain ⟨hip, hr⟩ := h
        subst hip
        subst hr
        obtain ⟨hcs, hall⟩ := numDigits_eq hnd
        subst hcs
        exact ⟨rfl, getLast?_cons_digit h1 hall⟩
      · rw [if_neg h1] at h
        exact absurd h (by simp)

theorem parseFracPart_eq {s fp r : List Char} (h : parseFracPart s = (fp, r)) :
    s = fp ++ r ∧ (fp = [] ∨ ∃ cc, fp.getLast? = some cc ∧ cc.isDigit = true) := by
  rw [parseFracPart.eq_def] at h
  split at h
  · rename_i c cs
    by_cases hd : c.isDigit
    · rw [if_pos hd] at h
      obtain ⟨ds, rr, hnd⟩ : ∃ ds rr, numDigits cs = (ds, rr) := ⟨_, _, rfl⟩
      rw [hnd] at h
      injection h with h1 h2
      subst h1
      subst h2
      obtain ⟨hcs, hall⟩ := numDigits_eq hnd
      subst hcs
      refine ⟨rfl, Or.inr ?_⟩
      obtain ⟨cc, hl, hdig⟩ := getLast?_cons_digit hd hall
      refine ⟨cc, ?_, hdig⟩
      rw [List.getLast?_cons_cons]
      exact hl
    · rw [if_neg hd] at h
      injection h with h1 h2
      subst h1
      subst h2
      exact ⟨rfl, Or.inl rfl⟩
  · injection h with h1 h2
    subst h1
    subst h2
    exact ⟨rfl, Or.inl rfl⟩

theorem parseExpPart_eq {s ep r : List Char} (h : parseExpPart s = (ep, r)) :
    s = ep ++ r ∧ (ep = [] ∨ ∃ cc, ep.getLast? = some cc ∧ cc.isDigit = true) := by
  rw [parseExpPart.eq_def] at h
  split at h
  · -- s = []
    injection h with h1 h2
    subst h1
    subst h2
    exact ⟨rfl, Or.inl rfl⟩
  · rename_i c rest
    by_cases he : (c == 'e' || c == 'E') = true
    · rw [if_pos he] at h
      split at h
      · -- rest = []
        injection h with h1 h2
        subst h1
        subst h2
        exact ⟨rfl, Or.inl rfl⟩
      · rename_i d cs
        by_cases hd : d.isDigit
        · rw [if_pos hd] at h
          obtain ⟨ds, rr, hnd⟩ : ∃ ds rr, numDigits cs = (ds, rr) := ⟨_, _, rfl⟩
          rw [hnd] at h
          injection h with h1 h2
          subst h1
          subst h2
          obtain ⟨hcs, hall⟩ := numDigits_eq hnd
          subst hcs
          refine ⟨rfl, Or.inr ?_⟩
          obtain ⟨cc, hl, hdig⟩ := getLast?_cons_digit hd hall
          refine ⟨cc, ?_, hdig⟩
          rw [List.getLast?_cons_cons]
          exact hl
        · rw [if_neg hd] at h
          by_cases hs : (d == '+' || d == '-') = true
          · rw [if_pos hs] at h
            split at h
            · injection h with h1 h2
              subst h1
              subst h2
              exact ⟨rfl, Or.inl rfl⟩
            · rename_i d2 cs2
              by_cases hd2 : d2.isDigit
              · rw [if_pos hd2] at h
                obtain ⟨ds, rr, hnd⟩ : ∃ ds rr, numDigits cs2 = (ds, rr) := ⟨_, _, rfl⟩
                rw [hnd] at h
                injection h with h1 h2
                subst h1
                subst h2
                obtain ⟨hcs, hall⟩ := numDigits_eq hnd
                subst hcs
                refine ⟨rfl, Or.inr ?_⟩
                obtain ⟨cc, hl, hdig⟩ := getLast?_cons_digit hd2 hall
                refine ⟨cc, ?_, hdig⟩
                rw [List.getLast?_cons_cons, List.getLast?_cons_cons]
                exact hl
              · rw [if_neg hd2] at h
                injection h with h1 h2
                subst h1
                subst h2
                exact ⟨rfl, Or.inl rfl⟩
          · rw [if_neg hs] at h
            injection h with h1 h2
            subst h1
            subst h2
            exact ⟨rfl, Or.inl rfl⟩
    · rw [if_neg he] at h
      injection h with h1 h2
      subst h1
      subst h2
      exact ⟨rfl, Or.inl rfl⟩

theorem numCore_decomp {t ip r1 fp r2 ep r3 : List Char}
    (hip : parseIntPart t = some (ip, r1))
    (hf : parseFracPart r1 = (fp, r2)) (he : parseExpPart r2 = (ep, r3)) :
    t = (ip ++ fp ++ ep) ++ r3 ∧ ip ++ fp ++ ep ≠ [] ∧
      ∃ cc, (ip ++ fp ++ ep).getLast? = some cc ∧ cc.isDigit = true := by
  obtain ⟨ht, cci, hli, hdi⟩ := parseIntPart_decomp hip
  obtain ⟨hr1, hfl⟩ := parseFracPart_eq hf
  obtain ⟨hr2, hel⟩ := parseExpPart_eq he
  have hipne : ip ≠ [] := ne_nil_of_getLast?_some hli
  constructor
  · rw [ht, hr1, hr2]
    simp [List.append_assoc]
  constructor
  · simp [hipne]
  · rcases hel with rfl | ⟨cc, hl, hd⟩
    · rcases hfl with rfl | ⟨cc, hl, hd⟩
      · refine ⟨cci, ?_, hdi⟩
        simpa using hli
      · refine ⟨cc, ?_, hd⟩
        rw [List.append_nil, getLast?_pre_append ip (ne_nil_of_getLast?_some hl)]
        exact hl
    · refine ⟨cc, ?_, hd⟩
      rw [getLast?_pre_append (ip ++ fp) (ne_nil_of_getLast?_some hl)]
      exact hl

theorem parseNumber_decomp {s lex rest : List Char} (h : parseNumber s = some (lex, rest)) :
    s = lex ++ rest ∧ lex ≠ [] ∧ ∃ cc, lex.getLast? = some cc ∧ cc.isDigit = true := by
  rw [parseNumber.eq_def] at h
  split at h
  · rename_i t
    split at h
    · rename_i ip r1 hip
      obtain ⟨fp, r2, hf⟩ : ∃ fp r2, parseFracPart r1 = (fp, r2) := ⟨_, _, rfl⟩
      obtain ⟨ep, r3, he⟩ : ∃ ep r3, parseExpPart r2 = (ep, r3) := ⟨_, _, rfl⟩
      rw [hf] at h
      dsimp only at h
      rw [he] at h
      dsimp only at h
      simp only [Option.some.injEq, Prod.mk.injEq] at h
      obtain ⟨h1, h2⟩ := h
      subst h1
      subst h2
      obtain ⟨ht, hne, cc, hl, hd⟩ := numCore_decomp hip hf he
      refine ⟨by rw [ht]; rfl, by simp, cc, ?_, hd⟩
      show (['-'] ++ (ip ++ fp ++ ep)).getLast? = some cc
      rw [getLast?_pre_append _ hne]
      exact hl
    · exact absurd h (by simp)
  · split at h
    · rename_i ip r1 hip
      obtain ⟨fp, r2, hf⟩ : ∃ fp r2, parseFracPart r1 = (fp, r2) := ⟨_, _, rfl⟩
      obtain ⟨ep, r3, he⟩ : ∃ ep r3, parseExpPart r2 = (ep, r3) := ⟨_, _, rfl⟩
      rw [hf] at h
      dsimp only at h
      rw [he] at h
      dsimp only at h
      simp only [Option.some.injEq, Prod.mk.injEq] at h
      obtain ⟨h1, h2⟩ := h
      subst h1
      subst h2
      obtain ⟨ht, hne, cc, hl, hd⟩ := numCore_decomp hip hf he
      exact ⟨ht, hne, cc, hl, hd⟩
    · exact absurd h (by simp)

theorem eq_concat_of_getLast? {l : List Char} {c : Char} (h : l.getLast? = some c) :
    ∃ l₀, l = l₀ ++ [c] := by
  have hne : l ≠ [] := ne_nil_of_getLast?_some h
  have h2 := List.getLast?_eq_getLast l hne
  rw [h2] at h
  injection h with h3
  refine ⟨l.dropLast, ?_⟩
  rw [← h3]
  exact (List.dropLast_concat_getLast hne).symm

/-- What a successful parse consumes ends in a closing character: a quote for
strings, `}` for objects, `]` for arrays, a digit or literal tail otherwise.
This is what makes the pipeline's trailing ``` ``` `` check and `strip` calls
unable to fire on well-formed JSON. -/
theorem parse_last (f : Nat) :
    (∀ s v rest, parseValue f s = some (v, rest) →
        ∃ C₀ c, s = (C₀ ++ [c]) ++ rest ∧ termChar c = true) ∧
      (∀ acc s v rest, parseMembers f acc s = some (v, rest) →
        ∃ C₀, s = (C₀ ++ ['\x7d']) ++ rest) ∧
      (∀ acc s v rest, parseElems f acc s = some (v, rest) →
        ∃ C₀, s = (C₀ ++ [']']) ++ rest) := by
  induction f with
  | zero =>
    refine ⟨fun s v rest h => ?_, fun acc s v rest h => ?_, fun acc s v rest h => ?_⟩ <;>
      simp [parseValue, parseMembers, parseElems] at h
  | succ f ih =>
    obtain ⟨ihV, ihM, ihE⟩ := ih
    refine ⟨?_, ?_, ?_⟩
    · intro s v rest h
      cases s with
      | nil => simp [parseValue] at h
      | cons c cs =>
        rw [parseValue.eq_def] at h
        dsimp only at h
        by_cases h1 : (c == '"') = true
        · rw [if_pos h1] at h
          have hc : c = '"' := by simpa using h1
          subst hc
          split at h
          · rename_i content rest2 hpsb
            simp only [Option.some.injEq, Prod.mk.injEq] at h
            obtain ⟨-, hr⟩ := h
            subst hr
            obtain ⟨C1, hC1, hne1, hl1⟩ := parseStringBody_decomp hpsb
            obtain ⟨C1₀, hsplit⟩ := eq_concat_of_getLast? hl1
            refine ⟨'"' :: C1₀, '"', ?_, by decide⟩
            rw [hC1, hsplit]
            simp
          · exact absurd h (by simp)
        · rw [if_neg h1] at h
          by_cases h2 : (c == '\x7b') = true
          · rw [if_pos h2] at h
            have hc : c = '\x7b' := by simpa using h2
            subst hc
            obtain ⟨w, hw, -⟩ := skipWs_decomp cs
            split at h
            · rename_i rest2 heq
              simp only [Option.some.injEq, Prod.mk.injEq] at h
              obtain ⟨-, hr⟩ := h
              subst hr
              refine ⟨'\x7b' :: w, '\x7d', ?_, by decide⟩
              nth_rewrite 1 [hw]
              rw [heq]
              simp
            · obtain ⟨C₀, hC⟩ := ihM [] (skipWs cs) v rest h
              refine ⟨'\x7b' :: w ++ C₀, '\x7d', ?_, by decide⟩
              nth_rewrite 1 [hw]
              rw [hC]
              simp
          · rw [if_neg h2] at h
            by_cases h3 : (c == '[') = true
            · rw [if_pos h3] at h
              have hc : c = '[' := by simpa using h3
              subst hc
              obtain ⟨w, hw, -⟩ := skipWs_decomp cs
              split at h
              · rename_i rest2 heq
                simp only [Option.some.injEq, Prod.mk.injEq] at h
                obtain ⟨-, hr⟩ := h
                subst hr
                refine ⟨'[' :: w, ']', ?_, by decide⟩
                nth_rewrite 1 [hw]
                rw [heq]
                simp
              · split at h
                · rename_i v1 r hpv
                  obtain ⟨Ca₀, ca, hCa, -⟩ := ihV (skipWs cs) v1 r hpv
                  obtain ⟨w2, hw2, -⟩ := skipWs_decomp r
                  obtain ⟨C₀, hC⟩ := ihE [v1] (skipWs r) v rest h
                  refine ⟨'[' :: w ++ Ca₀ ++ [ca] ++ w2 ++ C₀, ']', ?_, by decide⟩
                  nth_rewrite 1 [hw]
                  rw [hCa]
                  nth_rewrite 1 [hw2]
                  rw [hC]
                  simp
                · exact absurd h (by simp)
            · rw [if_neg h3] at h
              by_cases h4 : hasPref (c :: cs) ("true".data) = true
              · rw [if_pos h4] at h
                simp only [Option.some.injEq, Prod.mk.injEq] at h
                obtain ⟨-, hr⟩ := h
                subst hr
                refine ⟨['t', 'r', 'u'], 'e', ?_, by decide⟩
                have e : ("true".data) = ['t', 'r', 'u', 'e'] := rfl
                have h5 := hasPref_decomp h4
                rw [e] at h5
                simpa using h5
              · rw [if_neg h4] at h
                by_cases h5 : hasPref (c :: cs) ("false".data) = true
                · rw [if_pos h5] at h
                  simp only [Option.some.injEq, Prod.mk.injEq] at h
                  obtain ⟨-, hr⟩ := h
                  subst hr
                  refine ⟨['f', 'a', 'l', 's'], 'e', ?_, by decide⟩
                  have e : ("false".data) = ['f', 'a', 'l', 's', 'e'] := rfl
                  have h6 := hasPref_decomp h5
                  rw [e] at h6
                  simpa using h6
                · rw [if_neg h5] at h
                  by_cases h6 : hasPref (c :: cs) ("null".data) = true
                  · rw [if_pos h6] at h
                    simp only [Option.some.injEq, Prod.mk.injEq] at h
                    obtain ⟨-, hr⟩ := h
                    subst hr
                    refine ⟨['n', 'u', 'l'], 'l', ?_, by decide⟩
                    have e : ("null".data) = ['n', 'u', 'l', 'l'] := rfl
                    have h7 := hasPref_decomp h6
                    rw [e] at h7
                    simpa using h7
                  · rw [if_neg h6] at h
                    by_cases h7 : hasPref (c :: cs) ("NaN".data) = true
                    · rw [if_pos h7] at h
                      simp only [Option.some.injEq, Prod.mk.injEq] at h
                      obtain ⟨-, hr⟩ := h
                      subst hr
                      refine ⟨['N', 'a'], 'N', ?_, by decide⟩
                      have e : ("NaN".data) = ['N', 'a', 'N'] := rfl
                      have h8 := hasPref_decomp h7
                      rw [e] at h8
                      simpa using h8
                    · rw [if_neg h7] at h
                      by_cases h8 : hasPref (c :: cs) ("Infinity".data) = true
                      · rw [if_pos h8] at h
                        simp only [Option.some.injEq, Prod.mk.injEq] at h
                        obtain ⟨-, hr⟩ := h
                        subst hr
                        refine ⟨['I', 'n', 'f', 'i', 'n', 'i', 't'], 'y', ?_, by decide⟩
                        have e : ("Infinity".data) = ['I', 'n', 'f', 'i', 'n', 'i', 't', 'y'] := rfl
                        have h9 := hasPref_decomp h8
                        rw [e] at h9
                        simpa using h9
                      · rw [if_neg h8] at h
                        by_cases h9 : hasPref (c :: cs) ("-Infinity".data) = true
                        · rw [if_pos h9] at h
                          simp only [Option.some.injEq, Prod.mk.injEq] at h
                          obtain ⟨-, hr⟩ := h
                          subst hr
                          refine ⟨['-', 'I', 'n', 'f', 'i', 'n', 'i', 't'], 'y', ?_, by decide⟩
                          have e : ("-Infinity".data)
                              = ['-', 'I', 'n', 'f', 'i', 'n', 'i', 't', 'y'] := rfl
                          have h10 := hasPref_decomp h9
                          rw [e] at h10
                          simpa using h10
                        · rw [if_neg h9] at h
                          split at h
                          · rename_i lex rest2 hpn
                            simp only [Option.some.injEq, Prod.mk.injEq] at h
                            obtain ⟨-, hr⟩ := h
                            subst hr
                            obtain ⟨hs, hnel, cc, hl, hd⟩ := parseNumber_decomp hpn
                            obtain ⟨lex₀, hsplit⟩ := eq_concat_of_getLast? hl
                            refine ⟨lex₀, cc, ?_, ?_⟩
                            · rw [hs, hsplit]
                            · simp [termChar, hd]
                          · exact absurd h (by simp)
    · intro acc s v rest h
      cases s with
      | nil => simp [parseMembers] at h
      | cons c cs =>
        rw [parseMembers.eq_def] at h
        dsimp only at h
        by_cases h1 : (c == '"') = true
        · rw [if_pos h1] at h
          have hc : c = '"' := by simpa using h1
          subst hc
          split at h
          · rename_i key r1 hpsb
            split at h
            · rename_i r2 heq1
              split at h
              · rename_i v1 r3 hpv
                split at h
                · rename_i r4 heq2
                  obtain ⟨C1, hC1, hne1, hl1⟩ := parseStringBody_decomp hpsb
                  obtain ⟨w1, hw1, -⟩ := skipWs_decomp r1
                  obtain ⟨w2, hw2, -⟩ := skipWs_decomp r2
                  obtain ⟨Ca₀, ca, hCa, -⟩ := ihV (skipWs r2) v1 r3 hpv
                  obtain ⟨w3, hw3, -⟩ := skipWs_decomp r3
                  obtain ⟨w4, hw4, -⟩ := skipWs_decomp r4
                  obtain ⟨C₀, hC⟩ := ihM _ (skipWs r4) v rest h
                  refine ⟨'"' :: C1 ++ w1 ++ [':'] ++ w2 ++ Ca₀ ++ [ca] ++ w3 ++ [','] ++
                    w4 ++ C₀, ?_⟩
                  rw [hC1]
                  nth_rewrite 1 [hw1]
                  rw [heq1]
                  nth_rewrite 1 [hw2]
                  rw [hCa]
                  nth_rewrite 1 [hw3]
                  rw [heq2]
                  nth_rewrite 1 [hw4]
                  rw [hC]
                  simp
                · rename_i r4 heq2
                  simp only [Option.some.injEq, Prod.mk.injEq] at h
                  obtain ⟨-, hr⟩ := h
                  subst hr
                  obtain ⟨C1, hC1, hne1, hl1⟩ := parseStringBody_decomp hpsb
                  obtain ⟨w1, hw1, -⟩ := skipWs_decomp r1
                  obtain ⟨w2, hw2, -⟩ := skipWs_decomp r2
                  obtain ⟨Ca₀, ca, hCa, -⟩ := ihV (skipWs r2) v1 r3 hpv
                  obtain ⟨w3, hw3, -⟩ := skipWs_decomp r3
                  refine ⟨'"' :: C1 ++ w1 ++ [':'] ++ w2 ++ Ca₀ ++ [ca] ++ w3, ?_⟩
                  rw [hC1]
                  nth_rewrite 1 [hw1]
                  rw [heq1]
                  nth_rewrite 1 [hw2]
                  rw [hCa]
                  nth_rewrite 1 [hw3]
                  rw [heq2]
                  simp
                · exact absurd h (by simp)
              · exact absurd h (by simp)
            · exact absurd h (by simp)
          · exact absurd h (by simp)
        · rw [if_neg h1] at h
          exact absurd h (by simp)
    · intro acc s v rest h
      cases s with
      | nil => simp [parseElems] at h
      | cons c cs =>
        rw [parseElems.eq_def] at h
        dsimp only at h
        by_cases h1 : (c == ',') = true
        · rw [if_pos h1] at h
          have hc : c = ',' := by simpa using h1
          subst hc
          split at h
          · rename_i v1 r2 hpv
            obtain ⟨w, hw, -⟩ := skipWs_decomp cs
            obtain ⟨Ca₀, ca, hCa, -⟩ := ihV (skipWs cs) v1 r2 hpv
            obtain ⟨w2, hw2, -⟩ := skipWs_decomp r2
            obtain ⟨C₀, hC⟩ := ihE _ (skipWs r2) v rest h
            refine ⟨',' :: w ++ Ca₀ ++ [ca] ++ w2 ++ C₀, ?_⟩
            nth_rewrite 1 [hw]
            rw [hCa]
            nth_rewrite 1 [hw2]
            rw [hC]
            simp
          · exact absurd h (by simp)
        · rw [if_neg h1] at h
          by_cases h2 : (c == ']') = true
          · rw [if_pos h2] at h
            have hc : c = ']' := by simpa using h2
            subst hc
            simp only [Option.some.injEq, Prod.mk.injEq] at h
            obtain ⟨-, hr⟩ := h
            subst hr
            exact ⟨[], by simp⟩
          · rw [if_neg h2] at h
            exact absurd h (by simp)

theorem parseIntPart_head {c : Char} {cs : List Char} {r : List Char × List Char}
    (h : parseIntPart (c :: cs) = some r) : c.isDigit = true := by
  rw [parseIntPart.eq_def] at h
  dsimp only at h
  by_cases h0 : (c == '0') = true
  · have hc : c = '0' := by simpa using h0
    subst hc
    decide
  · rw [if_neg h0] at h
    by_cases h1 : c.isDigit
    · exact h1
    · rw [if_neg h1] at h
      exact absurd h (by simp)

theorem parseNumber_head {c : Char} {cs : List Char} {r : List Char × List Char}
    (h : parseNumber (c :: cs) = some r) : c = '-' ∨ c.isDigit = true := by
  rw [parseNumber.eq_def] at h
  split at h
  · rename_i t heq
    injection heq with h1 h2
    exact Or.inl h1
  · split at h
    · rename_i ip r1 hip
      exact Or.inr (parseIntPart_head hip)
    · exact absurd h (by simp)

theorem parseValue_head {f : Nat} {s : List Char} {v : JValue} {rest : List Char}
    (h : parseValue f s = some (v, rest)) :
    ∃ c t, s = c :: t ∧ startChar c = true := by
  match f, s with
  | 0, _ => simp [parseValue] at h
  | _ + 1, [] => simp [parseValue] at h
  | f + 1, c :: cs =>
    refine ⟨c, cs, rfl, ?_⟩
    rw [parseValue.eq_def] at h
    dsimp only at h
    by_cases h1 : (c == '"') = true
    · simp [startChar, h1]
    · rw [if_neg h1] at h
      by_cases h2 : (c == '\x7b') = true
      · simp [startChar, h2]
      · rw [if_neg h2] at h
        by_cases h3 : (c == '[') = true
        · simp [startChar, h3]
        · rw [if_neg h3] at h
          by_cases h4 : hasPref (c :: cs) ("true".data) = true
          · have e : ("true".data) = 't' :: ['r', 'u', 'e'] := rfl
            rw [e] at h4
            have hc := hasPref_head h4
            subst hc
            decide
          · rw [if_neg h4] at h
            by_cases h5 : hasPref (c :: cs) ("false".data) = true
            · have e : ("false".data) = 'f' :: ['a', 'l', 's', 'e'] := rfl
              rw [e] at h5
              have hc := hasPref_head h5
              subst hc
              decide
            · rw [if_neg h5] at h
              by_cases h6 : hasPref (c :: cs) ("null".data) = true
              · have e : ("null".data) = 'n' :: ['u', 'l', 'l'] := rfl
                rw [e] at h6
                have hc := hasPref_head h6
                subst hc
                decide
              · rw [if_neg h6] at h
                by_cases h7 : hasPref (c :: cs) ("NaN".data) = true
                · have e : ("NaN".data) = 'N' :: ['a', 'N'] := rfl
                  rw [e] at h7
                  have hc := hasPref_head h7
                  subst hc
                  decide
                · rw [if_neg h7] at h
                  by_cases h8 : hasPref (c :: cs) ("Infinity".data) = true
                  · have e : ("Infinity".data) = 'I' :: ['n', 'f', 'i', 'n', 'i', 't', 'y'] := rfl
                    rw [e] at h8
                    have hc := hasPref_head h8
                    subst hc
                    decide
                  · rw [if_neg h8] at h
                    by_cases h9 : hasPref (c :: cs) ("-Infinity".data) = true
                    · have e : ("-Infinity".data)
                          = '-' :: ['I', 'n', 'f', 'i', 'n', 'i', 't', 'y'] := rfl
                      rw [e] at h9
                      have hc := hasPref_head h9
                      subst hc
                      decide
                    · rw [if_neg h9] at h
                      split at h
                      · rename_i lex rest2 hpn
                        rcases parseNumber_head hpn with hc | hd
                        · subst hc
                          decide
                        · simp [startChar, hd]
                      · exact absurd h (by simp)

theorem getLast?_all_pyWs {w : List Char} (hne : w ≠ []) (hall : ∀ a ∈ w, isPyWs a = true) :
    ∃ cl, w.getLast? = some cl ∧ isPyWs cl = true :=
  ⟨w.getLast hne, List.getLast?_eq_getLast w hne, hall _ (List.getLast_mem hne)⟩

/-- A text accepted by `json.loads` decomposes as whitespace, a core that
starts with a value-opening character and ends with a value-closing character,
and trailing whitespace; `str.strip()` returns exactly the core. -/
theorem jsonParse_decomp {J : List Char} {v : JValue} (h : jsonParse J = some v) :
    ∃ w₁ C w₂ cS cE,
      J = w₁ ++ C ++ w₂ ∧
      (∀ a ∈ w₁, isPyWs a = true) ∧ (∀ a ∈ w₂, isPyWs a = true) ∧
      C.head? = some cS ∧ startChar cS = true ∧
      C.getLast? = some cE ∧ termChar cE = true ∧
      pyStrip J = C := by
  unfold jsonParse at h
  dsimp only at h
  split at h
  · rename_i v' rest hpv
    split at h
    · rename_i hEmpty
      injection h with hv
      obtain ⟨C₀, cE, hC, hterm⟩ := (parse_last _).1 _ _ _ hpv
      obtain ⟨cS, t, hhead, hstart⟩ := parseValue_head hpv
      obtain ⟨w₁, hw₁, hw₁all'⟩ := skipWs_decomp J
      have hw₁all : ∀ a ∈ w₁, isPyWs a = true := fun a ha => jsonWs_pyWs (hw₁all' a ha)
      have hw₂all : ∀ a ∈ rest, isPyWs a = true := fun a ha =>
        jsonWs_pyWs (all_of_skipWs_nil (by simpa using hEmpty) a ha)
      have hCne : C₀ ++ [cE] ≠ [] := by simp
      have hChead : (C₀ ++ [cE]).head? = some cS := by
        rw [hC] at hhead
        cases hCC : C₀ ++ [cE] with
        | nil => exact absurd hCC hCne
        | cons a t' =>
          rw [hCC] at hhead
          simp only [List.cons_append, List.cons.injEq] at hhead
          rw [hhead.1]
          rfl
      have hJ : J = w₁ ++ (C₀ ++ [cE]) ++ rest := by
        rw [hw₁, hC]
        simp
      refine ⟨w₁, C₀ ++ [cE], rest, cS, cE, hJ, hw₁all, hw₂all, hChead, hstart,
        List.getLast?_concat C₀, hterm, ?_⟩
      rw [hJ]
      exact pyStrip_sandwich hw₁all hw₂all hChead (startChar_good hstart).1
        (List.getLast?_concat C₀) (termChar_good hterm).1
    · exact absurd h (by simp)
  · exact absurd h (by simp)

/-- The fence checks of the pipeline can never fire on a text accepted by
`json.loads`, nor on its stripped form. -/
theorem jsonWf_facts {J : List Char} {v : JValue} (h : jsonParse J = some v) :
    pyStrip (pyStrip J) = pyStrip J ∧
    hasPref J ("```".data) = false ∧
    hasPref J ("```json".data) = false ∧
    hasSuf J ("```".data) = false ∧
    hasPref (pyStrip J) ("```".data) = false ∧
    hasPref (pyStrip J) ("```json".data) = false ∧
    hasSuf (pyStrip J) ("```".data) = false := by
  obtain ⟨w₁, C, w₂, cS, cE, hJ, hw₁, hw₂, hChead, hstart, hClast, hterm, hstrip⟩ :=
    jsonParse_decomp h
  have hCne : C ≠ [] := by
    intro hC
    rw [hC] at hChead
    simp at hChead
  have hSne : ¬(cS = '`') := (startChar_good hstart).2
  have hEne : ¬(cE = '`') := (termChar_good hterm).2
  have e3 : ("```".data) = '`' :: ['`', '`'] := rfl
  have e7 : ("```json".data) = '`' :: ['`', '`', 'j', 's', 'o', 'n'] := rfl
  have e3r : ("```".data).reverse = '`' :: ['`', '`'] := rfl
  -- head of J
  have hJhead : ∃ ch, J.head? = some ch ∧ ¬(ch = '`') := by
    cases w₁ with
    | nil =>
      refine ⟨cS, ?_, hSne⟩
      rw [hJ, List.nil_append, List.head?_append, hChead]
      rfl
    | cons a t =>
      refine ⟨a, ?_, pyWs_ne_backtick (hw₁ a (List.mem_cons_self a t))⟩
      rw [hJ]
      rfl
  -- last of J
  have hJlast : ∃ cl, J.getLast? = some cl ∧ ¬(cl = '`') := by
    cases hw : w₂ with
    | nil =>
      refine ⟨cE, ?_, hEne⟩
      rw [hJ, hw, List.append_nil, getLast?_pre_append w₁ hCne]
      exact hClast
    | cons a t =>
      obtain ⟨cl, hcl, hclw⟩ := getLast?_all_pyWs (by simp [hw]) (hw ▸ hw₂)
      refine ⟨cl, ?_, pyWs_ne_backtick hclw⟩
      rw [hJ, List.append_assoc, getLast?_pre_append w₁ (by simp [hw]),
        getLast?_pre_append C (by simp [hw]), hw]
      exact hcl
  obtain ⟨ch, hch, hchne⟩ := hJhead
  obtain ⟨cl, hcl, hclne⟩ := hJlast
  refine ⟨?_, ?_, ?_, ?_, ?_, ?_, ?_⟩
  · rw [hstrip]
    exact pyStrip_self hChead (startChar_good hstart).1 hClast (termChar_good hterm).1
  · rw [e3]
    exact hasPref_eq_false_of_head hch hchne
  · rw [e7]
    exact hasPref_eq_false_of_head hch hchne
  · exact hasSuf_eq_false_of_getLast e3r hcl hclne
  · rw [hstrip, e3]
    exact hasPref_eq_false_of_head hChead hSne
  · rw [hstrip, e7]
    exact hasPref_eq_false_of_head hChead hSne
  · rw [hstrip]
    exact hasSuf_eq_false_of_getLast e3r hClast hEne

/-- On a well-formed JSON response, the fence-stripping pipeline is exactly
`str.strip()`. -/
theorem stripFences_of_wf {J : List Char} {v : JValue} (h : jsonParse J = some v) :
    stripFences J = pyStrip J := by
  obtain ⟨hidem, -, -, -, hp3, hp7, hs3⟩ := jsonWf_facts h
  unfold stripFences
  simp only [hp3, hp7, hs3, Bool.false_eq_true, if_false]
  exact hidem

/-- Wrapping a well-formed JSON text in a generic fence (a line of three
backticks above and below) strips back to exactly the stripped text. -/
theorem stripFences_wrap_of_wf {J : List Char} {v : JValue} (h : jsonParse J = some v) :
    stripFences (("```".data) ++ '\n' :: (J ++ '\n' :: ("```".data))) = pyStrip J := by
  obtain ⟨-, hJp3, hJp7, hJs3, -, -, -⟩ := jsonWf_facts h
  have hp1 : pyStrip (("```".data) ++ '\n' :: (J ++ '\n' :: ("```".data)))
      = ("```".data) ++ '\n' :: (J ++ '\n' :: ("```".data)) := by
    refine @pyStrip_self _ '`' '`' rfl (by decide) ?_ (by decide)
    rw [show ("```".data) ++ '\n' :: (J ++ '\n' :: ("```".data))
        = (("```".data) ++ '\n' :: (J ++ ['\n'])) ++ ("```".data) from by simp]
    rw [getLast?_pre_append _ (by decide)]
    decide
  have hpref : hasPref (("```".data) ++ '\n' :: (J ++ '\n' :: ("```".data))) ("```".data)
      = true := hasPref_append_self _ _
  have hlines : splitNl (("```".data) ++ '\n' :: (J ++ '\n' :: ("```".data)))
      = ("```".data) :: (splitNl J ++ [("```".data)]) := by
    rw [splitNl_append_left _ (by decide), splitNl_append_right J (by decide)]
  have hlen : ((("```".data) :: (splitNl J ++ [("```".data)])).length > 2) = True := by
    apply eq_true
    have hpos : 0 < (splitNl J).length := List.length_pos.mpr (splitNl_ne_nil J)
    simp only [List.length_cons, List.length_append]
    omega
  have hmid : joinNl (((("```".data) :: (splitNl J ++ [("```".data)])).drop 1).dropLast)
      = J := by
    simp only [List.drop_succ_cons, List.drop_zero, List.dropLast_concat]
    exact joinNl_splitNl J
  unfold stripFences
  simp only [hp1, hpref, eq_self_iff_true, if_true, hlines, hlen, hmid, hJp7,
    Bool.false_eq_true, if_false, hJs3]

/-- A single-line `json`-tagged fence around a newline-free well-formed JSON
text also strips back to exactly the stripped text: the line-slicing branch
leaves the single-line response unchanged, the 7-character prefix drop removes
the opening fence, and the 3-character suffix drop removes the closing one. -/
theorem stripFences_jsonFence_of_wf {J : List Char} {v : JValue}
    (h : jsonParse J = some v) (hnl : '\n' ∉ J) :
    stripFences (("```json".data) ++ J ++ ("```".data)) = pyStrip J := by
  have e : ("```json".data) = ("```".data) ++ ("json".data) := rfl
  have hp1 : pyStrip (("```json".data) ++ J ++ ("```".data))
      = ("```json".data) ++ J ++ ("```".data) := by
    refine @pyStrip_self _ '`' '`' rfl (by decide) ?_ (by decide)
    rw [getLast?_pre_append _ (by decide : ("```".data) ≠ [])]
    decide
  have hpref3 : hasPref (("```json".data) ++ J ++ ("```".data)) ("```".data) = true := by
    rw [e, List.append_assoc, List.append_assoc]
    exact hasPref_append_self _ _
  have hF : '\n' ∉ (("```json".data) ++ J ++ ("```".data)) := by
    intro hm
    rcases List.mem_append.mp hm with hm1 | hm2
    · rcases List.mem_append.mp hm1 with hm3 | hm4
      · exact absurd hm3 (by decide)
      · exact hnl hm4
    · exact absurd hm2 (by decide)
  have hlines : splitNl (("```json".data) ++ J ++ ("```".data))
      = [("```json".data) ++ J ++ ("```".data)] := splitNl_of_not_mem hF
  have hlen : (([("```json".data) ++ J ++ ("```".data)]).length > 2) = False := by
    simp
  have hpref7 : hasPref (("```json".data) ++ J ++ ("```".data)) ("```json".data) = true := by
    rw [List.append_assoc]
    exact hasPref_append_self _ _
  have hdrop : (("```json".data) ++ J ++ ("```".data)).drop 7 = J ++ ("```".data) := by
    rw [List.append_assoc]
    have h7 : (7 : Nat) = ("```json".data).length := rfl
    rw [h7]
    exact List.drop_left _ _
  have hsuf : hasSuf (J ++ ("```".data)) ("```".data) = true := hasSuf_append_self _ _
  have htake : (J ++ ("```".data)).take ((J ++ ("```".data)).length - 3) = J := by
    have hl : (J ++ ("```".data)).length - 3 = J.length := by
      simp
    rw [hl]
    exact List.take_left _ _
  unfold stripFences
  simp only [hp1, hpref3, eq_self_iff_true, if_true, hlines, hlen, if_false, hpref7,
    hdrop, hsuf, htake]

/-! ### Lemmas about the verify-insertion rebuild -/

theorem lookupJ_none {k : String} {d : List (String × JValue)}
    (h : k ∉ d.map Prod.fst) : lookupJ k d = none := by
  induction d with
  | nil => rfl
  | cons p t ih =>
    have hne : ¬(p.1 = k) := by
      intro hh
      exact h (by simp [← hh])
    obtain ⟨k', v'⟩ := p
    simp only [lookupJ, if_neg hne]
    exact ih fun hm => h (List.mem_cons_of_mem _ hm)

theorem dictSet_append_fresh {d : List (String × JValue)} {k : String} {v : JValue}
    (h : k ∉ d.map Prod.fst) : dictSet d k v = d ++ [(k, v)] := by
  induction d with
  | nil => rfl
  | cons p t ih =>
    have hne : ¬(p.1 = k) := by
      intro hh
      exact h (by simp [← hh])
    obtain ⟨k', v'⟩ := p
    simp only [dictSet, if_neg hne]
    rw [ih fun hm => h (List.mem_cons_of_mem _ hm)]
    rfl

theorem dictSet_update_second {k₁ : String} {v₁ : JValue} {k : String} {w v : JValue}
    {rest : List (String × JValue)} (hne : ¬(k₁ = k)) :
    dictSet ((k₁, v₁) :: (k, w) :: rest) k v = (k₁, v₁) :: (k, v) :: rest := by
  simp [dictSet, hne]

/-- The accumulating loop of the verify rebuild: starting from
`{'head': h, 'verify': w}`, re-inserting the fields of `L` (skipping
`'head'`) yields `head`, then `verify` (overwritten in place when `L` itself
carries a `verify` field), then the remaining fields in order. -/
theorem rebuild_fold (L : List (String × JValue)) :
    ∀ (R : List (String × JValue)) (h w : JValue),
      (L.map Prod.fst).Nodup →
      (∀ p ∈ L, p.1 ∉ R.map Prod.fst) →
      ("head" ∉ R.map Prod.fst) → ("verify" ∉ R.map Prod.fst) →
      L.foldl (fun acc p => if p.1 ≠ "head" then dictSet acc p.1 p.2 else acc)
          (("head", h) :: ("verify", w) :: R)
        = ("head", h) :: ("verify", (lookupJ "verify" L).getD w) ::
            (R ++ L.filter (fun p => p.1 != "head" && p.1 != "verify")) := by
  induction L with
  | nil =>
    intro R h w _ _ _ _
    simp [lookupJ]
  | cons p T ih =>
    intro R h w hnd hdisj hR1 hR2
    have hndT : (T.map Prod.fst).Nodup := by
      simp only [List.map_cons, List.nodup_cons] at hnd
      exact hnd.2
    have hpT : p.1 ∉ T.map Prod.fst := by
      simp only [List.map_cons, List.nodup_cons] at hnd
      exact hnd.1
    have hdisjT : ∀ q ∈ T, q.1 ∉ R.map Prod.fst := fun q hq =>
      hdisj q (List.mem_cons_of_mem p hq)
    obtain ⟨k, v⟩ := p
    by_cases hk1 : k = "head"
    · subst hk1
      rw [List.foldl_cons, if_neg (by simp)]
      rw [ih R h w hndT hdisjT hR1 hR2]
      have hlv : lookupJ "verify" (("head", v) :: T) = lookupJ "verify" T := by
        simp [lookupJ]
      rw [hlv]
      have hfl : (("head", v) :: T).filter (fun p => p.1 != "head" && p.1 != "verify")
          = T.filter (fun p => p.1 != "head" && p.1 != "verify") := by
        rw [List.filter_cons]
        simp
      rw [hfl]
    · by_cases hk2 : k = "verify"
      · subst hk2
        rw [List.foldl_cons, if_pos (by simp)]
        rw [dictSet_update_second (by decide)]
        rw [ih R h v hndT hdisjT hR1 hR2]
        have hvT : lookupJ "verify" T = none := lookupJ_none hpT
        have hlv : lookupJ "verify" (("verify", v) :: T) = some v := by
          simp [lookupJ]
        rw [hlv, hvT]
        have hfl : (("verify", v) :: T).filter (fun p => p.1 != "head" && p.1 != "verify")
            = T.filter (fun p => p.1 != "head" && p.1 != "verify") := by
          rw [List.filter_cons]
          simp
        rw [hfl]
        rfl
      · rw [List.foldl_cons, if_pos (by simpa using hk1)]
        have hkR : k ∉ R.map Prod.fst := hdisj (k, v) (List.mem_cons_self _ _)
        have hds : dictSet (("head", h) :: ("verify", w) :: R) k v
            = ("head", h) :: ("verify", w) :: (R ++ [(k, v)]) := by
          simp only [dictSet, if_neg (show ¬("head" = k) from fun hh => hk1 hh.symm),
            if_neg (show ¬("verify" = k) from fun hh => hk2 hh.symm)]
          rw [dictSet_append_fresh hkR]
        rw [hds]
        have hdisj' : ∀ q ∈ T, q.1 ∉ (R ++ [(k, v)]).map Prod.fst := by
          intro q hq
          simp only [List.map_append, List.mem_append]
          rintro (hm | hm)
          · exact hdisjT q hq hm
          · simp only [List.map_cons, List.map_nil, List.mem_singleton] at hm
            have hqm := List.mem_map_of_mem Prod.fst hq
            rw [hm] at hqm
            exact hpT hqm
        have hR1' : "head" ∉ (R ++ [(k, v)]).map Prod.fst := by
          simp only [List.map_append, List.mem_append]
          rintro (hm | hm)
          · exact hR1 hm
          · simp only [List.map_cons, List.map_nil, List.mem_singleton] at hm
            exact hk1 hm.symm
        have hR2' : "verify" ∉ (R ++ [(k, v)]).map Prod.fst := by
          simp only [List.map_append, List.mem_append]
          rintro (hm | hm)
          · exact hR2 hm
          · simp only [List.map_cons, List.map_nil, List.mem_singleton] at hm
            exact hk2 hm.symm
        rw [ih (R ++ [(k, v)]) h w hndT hdisj' hR1' hR2']
        have hlv : lookupJ "verify" ((k, v) :: T) = lookupJ "verify" T := by
          simp [lookupJ, hk2]
        rw [hlv]
        have hfl : ((k, v) :: T).filter (fun p => p.1 != "head" && p.1 != "verify")
            = (k, v) :: T.filter (fun p => p.1 != "head" && p.1 != "verify") := by
          rw [List.filter_cons]
          simp [hk1, hk2]
        rw [hfl]
        simp

/-- The rebuilt entry, for an entry with a `'head'` key and distinct keys. -/
theorem rebuildEntry_spec {e : List (String × JValue)} {hv : JValue}
    (hnd : (e.map Prod.fst).Nodup) (hh : lookupJ "head" e = some hv) :
    rebuildEntry e = ("head", hv) ::
      ("verify", (lookupJ "verify" e).getD (JValue.bool false)) ::
      e.filter (fun p => p.1 != "head" && p.1 != "verify") := by
  unfold rebuildEntry
  rw [hh]
  have h := rebuild_fold e [] hv (JValue.bool false) hnd (by simp) (by simp) (by simp)
  simpa using h

/-! ### Lemmas about the per-verse driver -/

theorem runDriver_keys {oracle : String → Except PyErr (List Char)} :
    ∀ {data out : List (String × JValue)}, runDriver oracle data = .ok out →
      out.map Prod.fst = data.map Prod.fst := by
  intro data
  induction data with
  | nil =>
    intro out h
    simp only [runDriver, Except.ok.injEq] at h
    subst h
    rfl
  | cons p rest ih =>
    intro out h
    obtain ⟨s, m⟩ := p
    simp only [runDriver] at h
    split at h
    · exact absurd h (by simp)
    · split at h
      · exact absurd h (by simp)
      · rename_i v hv out2 hout2
        simp only [Except.ok.injEq] at h
        subst h
        simp only [List.map_cons, List.cons.injEq]
        exact ⟨trivial, ih hout2⟩

theorem runDriver_all_ok {oracle : String → Except PyErr (List Char)} :
    ∀ {L : List (String × JValue)},
      (∀ p ∈ L, ∃ w, stepVal oracle p.1 = Except.ok w) →
      ∃ out, runDriver oracle L = .ok out ∧
        List.Forall₂ (fun p q => q.1 = p.1 ∧ stepVal oracle p.1 = Except.ok q.2) L out := by
  intro L
  induction L with
  | nil => exact fun _ => ⟨[], rfl, List.Forall₂.nil⟩
  | cons p rest ih =>
    intro hall
    obtain ⟨out2, hout2, hf⟩ := ih fun q hq => hall q (List.mem_cons_of_mem _ hq)
    obtain ⟨w, hw⟩ := hall p (List.mem_cons_self p rest)
    obtain ⟨s, m⟩ := p
    refine ⟨(s, w) :: out2, ?_, List.Forall₂.cons ⟨rfl, hw⟩ hf⟩
    simp only [runDriver]
    rw [show stepVal oracle s = Except.ok w from hw, hout2]

theorem runDriver_mid_err {oracle : String → Except PyErr (List Char)}
    {v₀ : String} (hstep : stepVal oracle v₀ = Except.ok emptyEntries) (m₀ : JValue) :
    ∀ {pre post : List (String × JValue)},
      (∀ p ∈ pre, ∃ w, stepVal oracle p.1 = Except.ok w) →
      (∀ p ∈ post, ∃ w, stepVal oracle p.1 = Except.ok w) →
      ∃ outPre outPost,
        runDriver oracle (pre ++ (v₀, m₀) :: post)
          = .ok (outPre ++ (v₀, emptyEntries) :: outPost) ∧
        List.Forall₂ (fun p q => q.1 = p.1 ∧ stepVal oracle p.1 = Except.ok q.2) pre outPre ∧
        List.Forall₂ (fun p q => q.1 = p.1 ∧ stepVal oracle p.1 = Except.ok q.2) post outPost := by
  intro pre
  induction pre with
  | nil =>
    intro post _ hpost
    obtain ⟨outPost, hout, hf⟩ := runDriver_all_ok hpost
    refine ⟨[], outPost, ?_, List.Forall₂.nil, hf⟩
    simp only [List.nil_append, runDriver]
    rw [hstep, hout]
  | cons p rest ih =>
    intro post hpre hpost
    obtain ⟨w, hw⟩ := hpre p (List.mem_cons_self p rest)
    obtain ⟨outPre, outPost, hout, hfPre, hfPost⟩ :=
      ih (fun q hq => hpre q (List.mem_cons_of_mem _ hq)) hpost
    obtain ⟨s, m⟩ := p
    refine ⟨(s, w) :: outPre, outPost, ?_, List.Forall₂.cons ⟨rfl, hw⟩ hfPre, hfPost⟩
    simp only [List.cons_append, runDriver, List.append_eq]
    rw [show stepVal oracle s = Except.ok w from hw, hout]

theorem runDriver_crash {oracle : String → Except PyErr (List Char)}
    {v₀ : String} {e : PyErr} (hbad : stepVal oracle v₀ = Except.error e) (m₀ : JValue) :
    ∀ {pre : List (String × JValue)},
      (∀ p ∈ pre, ∃ w, stepVal oracle p.1 = Except.ok w) →
      ∀ post, runDriver oracle (pre ++ (v₀, m₀) :: post) = .error e := by
  intro pre
  induction pre with
  | nil =>
    intro _ post
    simp only [List.nil_append, runDriver]
    rw [hbad]
  | cons p rest ih =>
    intro hpre post
    obtain ⟨w, hw⟩ := hpre p (List.mem_cons_self p rest)
    obtain ⟨s, m⟩ := p
    simp only [List.cons_append, runDriver, List.append_eq]
    rw [show stepVal oracle s = Except.ok w from hw,
      ih (fun q hq => hpre q (List.mem_cons_of_mem _ hq)) post]

theorem runDriver_ignores_values {oracle : String → Except PyErr (List Char)} :
    ∀ {d1 d2 : List (String × JValue)},
      d1.map Prod.fst = d2.map Prod.fst → runDriver oracle d1 = runDriver oracle d2 := by
  intro d1
  induction d1 with
  | nil =>
    intro d2 h
    cases d2 with
    | nil => rfl
    | cons q r2 => simp at h
  | cons p r ih =>
    intro d2 h
    cases d2 with
    | nil => simp at h
    | cons q r2 =>
      obtain ⟨s, m⟩ := p
      obtain ⟨s2, m2⟩ := q
      simp only [List.map_cons, List.cons.injEq] at h
      obtain ⟨hs, hr⟩ := h
      subst hs
      simp only [runDriver]
      rw [ih hr]

theorem driverStep_non_obj {v : JValue} (h : ∀ kvs, v ≠ JValue.obj kvs) :
    driverStep v = .error .attributeError := by
  cases v with
  | obj kvs => exact absurd rfl (h kvs)
  | null => rfl
  | bool b => rfl
  | num l => rfl
  | str s => rfl
  | arr l => rfl

theorem runMain_of_driver_ok {oracle : String → Except PyErr (List Char)}
    {data out : List (String × JValue)} (h : runDriver oracle data = .ok out) :
    runMain true true oracle data = RunOutcome.exited 0 (some out) := by
  simp [runMain, h]

theorem runMain_of_driver_err {oracle : String → Except PyErr (List Char)}
    {data : List (String × JValue)} {e : PyErr} (h : runDriver oracle data = .error e) :
    runMain true true oracle data = RunOutcome.crashed e := by
  simp [runMain, h]

/-! ### The claims -/

theorem hasPref_of_append {s p q : List Char} (h : hasPref s (p ++ q) = true) :
    hasPref s p = true := by
  induction p generalizing s with
  | nil => exact hasPref_nil s
  | cons c t ih =>
    cases s with
    | nil => simp [hasPref] at h
    | cons a b =>
      simp only [List.cons_append, hasPref, Bool.and_eq_true] at h ⊢
      exact ⟨h.1, ih h.2⟩

/-- C1 (amended): for every entry dict of a parsed result (distinct keys, as
`json.loads` guarantees) that contains a `head` field, the verify-insertion
step rebuilds the entry to begin with `head` (original value), then `verify`
— `false` when the entry had no `verify` field of its own, otherwise the
entry's original `verify` value — then all remaining original fields other
than `head` and `verify` in their original relative order with their values
unchanged; every entry lacking a `head` field is left completely untouched. -/
theorem enrich_verify_insertion (e : List (String × JValue))
    (hnd : (e.map Prod.fst).Nodup) :
    (lookupJ "head" e = none → enrichEntry (JValue.obj e) = .ok (JValue.obj e)) ∧
    (∀ hv, lookupJ "head" e = some hv →
      enrichEntry (JValue.obj e)
        = .ok (JValue.obj (("head", hv) ::
            ("verify", (lookupJ "verify" e).getD (JValue.bool false)) ::
            e.filter (fun p => p.1 != "head" && p.1 != "verify")))) := by
  constructor
  · intro h
    simp [enrichEntry, hasKeyJ, h]
  · intro hv hh
    simp only [enrichEntry, hasKeyJ, hh, Option.isSome_some, if_true]
    rw [rebuildEntry_spec hnd hh]

/-- C1 counterexample: an entry of a parsed result that already carries a
`verify` field keeps its original `verify` value (here `true`) in second
position, so the rebuilt entry does not have `verify` with boolean value
`false` after `head` as the claim states. -/
theorem enrich_verify_insertion_counterexample :
    parse_sloka_with_claude
        (.ok ("\x7b\"entries\": [\x7b\"head\": \"x\", \"verify\": true\x7d]\x7d".data))
      = JValue.obj [("entries", JValue.arr [JValue.obj
          [("head", JValue.str "x"), ("verify", JValue.bool true)]])] ∧
    enrichEntry (JValue.obj [("head", JValue.str "x"), ("verify", JValue.bool true)])
      = .ok (JValue.obj [("head", JValue.str "x"), ("verify", JValue.bool true)]) ∧
    JValue.bool true ≠ JValue.bool false := by
  refine ⟨by rfl, by rfl, ?_⟩
  intro hcon
  injection hcon with hb
  exact absurd hb (by decide)

/-- Witness for `enrich_verify_insertion` at a concrete entry. -/
theorem enrich_verify_insertion_witness :
    enrichEntry (JValue.obj [("head", JValue.str "सर्प"), ("gender", JValue.str "m"),
        ("syns", JValue.arr [JValue.str "नाग"])])
      = .ok (JValue.obj [("head", JValue.str "सर्प"), ("verify", JValue.bool false),
          ("gender", JValue.str "m"), ("syns", JValue.arr [JValue.str "नाग"])]) := by
  have h := (enrich_verify_insertion
      [("head", JValue.str "सर्प"), ("gender", JValue.str "m"),
        ("syns", JValue.arr [JValue.str "नाग"])]
      (by decide)).2 (JValue.str "सर्प") (by rfl)
  exact h

/-- C2: every verse key of the input mapping appears with identical string
content, in identical order, as the keys of the output mapping produced by
the pipeline driver. -/
theorem driver_preserves_keys (oracle : String → Except PyErr (List Char))
    (data out : List (String × JValue))
    (h : runMain true true oracle data = RunOutcome.exited 0 (some out)) :
    out.map Prod.fst = data.map Prod.fst := by
  cases hrun : runDriver oracle data with
  | ok out2 =>
    rw [runMain_of_driver_ok hrun] at h
    injection h with h1 h2
    injection h2 with h3
    rw [← h3]
    exact runDriver_keys hrun
  | error e =>
    rw [runMain_of_driver_err hrun] at h
    exact RunOutcome.noConfusion h

/-- Witness for `driver_preserves_keys` on a non-ASCII verse key. -/
theorem driver_preserves_keys_witness :
    ([("नागा बहुफणाः सर्पाः", emptyEntries)].map Prod.fst)
      = ([("नागा बहुफणाः सर्पाः", JValue.null)].map Prod.fst) :=
  driver_preserves_keys (fun _ => .ok ("\x7b\"entries\": []\x7d".data))
    [("नागा बहुफणाः सर्पाः", JValue.null)] [("नागा बहुफणाः सर्पाः", emptyEntries)] (by rfl)

/-- C3: when the model invocation raises an exception for one verse, that
verse is recorded with `{"entries": []}`, every other verse (whose processing
completes normally) is recorded with its normally processed value in order,
and the run completes with exit code 0. -/
theorem error_boundary_per_verse (oracle : String → Except PyErr (List Char))
    (pre post : List (String × JValue)) (v₀ : String) (m₀ : JValue) (exc : PyErr)
    (herr : oracle v₀ = Except.error exc)
    (hpre : ∀ p ∈ pre, ∃ w, stepVal oracle p.1 = Except.ok w)
    (hpost : ∀ p ∈ post, ∃ w, stepVal oracle p.1 = Except.ok w) :
    ∃ outPre outPost,
      runMain true true oracle (pre ++ (v₀, m₀) :: post)
        = RunOutcome.exited 0 (some (outPre ++ (v₀, emptyEntries) :: outPost)) ∧
      List.Forall₂ (fun p q => q.1 = p.1 ∧ stepVal oracle p.1 = Except.ok q.2) pre outPre ∧
      List.Forall₂ (fun p q => q.1 = p.1 ∧ stepVal oracle p.1 = Except.ok q.2) post
        outPost := by
  have hstep : stepVal oracle v₀ = Except.ok emptyEntries := by
    unfold stepVal
    rw [herr]
    rfl
  obtain ⟨outPre, outPost, hout, hfPre, hfPost⟩ := runDriver_mid_err hstep m₀ hpre hpost
  exact ⟨outPre, outPost, runMain_of_driver_ok hout, hfPre, hfPost⟩

/-- Witness for `error_boundary_per_verse`: verse "b" raises, verses "a" and
"c" are processed normally, the run exits 0. -/
theorem error_boundary_per_verse_witness :
    ∃ outPre outPost,
      runMain true true
          (fun v => if v = "b" then .error PyErr.generic
            else .ok ("\x7b\"entries\": []\x7d".data))
          ([("a", JValue.null)] ++ ("b", JValue.null) :: [("c", JValue.null)])
        = RunOutcome.exited 0 (some (outPre ++ ("b", emptyEntries) :: outPost)) ∧
      List.Forall₂ (fun p q => q.1 = p.1 ∧
        stepVal (fun v => if v = "b" then .error PyErr.generic
          else .ok ("\x7b\"entries\": []\x7d".data)) p.1 = Except.ok q.2)
        [("a", JValue.null)] outPre ∧
      List.Forall₂ (fun p q => q.1 = p.1 ∧
        stepVal (fun v => if v = "b" then .error PyErr.generic
          else .ok ("\x7b\"entries\": []\x7d".data)) p.1 = Except.ok q.2)
        [("c", JValue.null)] outPost := by
  refine error_boundary_per_verse _ [("a", JValue.null)] [("c", JValue.null)] "b"
    JValue.null PyErr.generic (by rfl) ?_ ?_
  · intro p hp
    simp only [List.mem_singleton] at hp
    subst hp
    exact ⟨emptyEntries, by rfl⟩
  · intro p hp
    simp only [List.mem_singleton] at hp
    subst hp
    exact ⟨emptyEntries, by rfl⟩

/-- C4 (amended): for every model response whose text, after fence stripping,
fails to parse as JSON, the response parser returns exactly `{"entries": []}`;
`parse_sloka_with_claude` is a total function, reflecting that the `except` handlers let
no exception reach the caller. -/
theorem malformed_response_empty_entries (t : List Char)
    (h : jsonParse (stripFences t) = none) :
    parse_sloka_with_claude (.ok t) = emptyEntries := by
  unfold parse_sloka_with_claude
  dsimp only
  rw [h]

/-- C4 counterexample: the response "```\n123\n```" fails to parse as JSON as
raw text, yet the parser returns the number 123 rather than
`{"entries": []}`, refuting the claim's quantification over every response
whose text fails to parse as JSON. -/
theorem malformed_response_counterexample :
    jsonParse ("```\n123\n```".data) = none ∧
    parse_sloka_with_claude (.ok ("```\n123\n```".data)) = JValue.num "123" ∧
    JValue.num "123" ≠ emptyEntries := by
  refine ⟨by rfl, by rfl, ?_⟩
  intro hcon
  exact JValue.noConfusion hcon

/-- Witness for `malformed_response_empty_entries`. -/
theorem malformed_response_witness :
    parse_sloka_with_claude (.ok ("not json".data)) = emptyEntries :=
  malformed_response_empty_entries ("not json".data) (by rfl)

/-- C5: for every well-formed JSON text J, the parser applied to J wrapped in
a generic triple-backtick fence (a line of three backticks, then J, then a
line of three backticks) extracts a structure identical to the structure it
extracts from J unwrapped. -/
theorem generic_fence_extraction_equiv (J : List Char) (v : JValue)
    (h : jsonParse J = some v) :
    parse_sloka_with_claude (.ok (("```".data) ++ '\n' :: (J ++ '\n' :: ("```".data))))
      = parse_sloka_with_claude (.ok J) := by
  unfold parse_sloka_with_claude
  dsimp only
  rw [stripFences_wrap_of_wf h, stripFences_of_wf h]

/-- Witness for `generic_fence_extraction_equiv`. -/
theorem generic_fence_extraction_equiv_witness :
    parse_sloka_with_claude (.ok (("```".data) ++ '\n' :: (("[1, 2]".data) ++ '\n' :: ("```".data))))
      = parse_sloka_with_claude (.ok ("[1, 2]".data)) :=
  generic_fence_extraction_equiv ("[1, 2]".data)
    (JValue.arr [JValue.num "1", JValue.num "2"]) (by rfl)

/-- C6 (amended): for every response whose stripped text has more than two
lines and opens with the ```json fence, PROVIDED the line-sliced remainder
does not itself begin with ```json, the json-tagged check never fires and the
parser's result equals its result under generic-fence stripping alone. -/
theorem json_fence_redundancy (t : List Char)
    (h7 : hasPref (pyStrip t) ("```json".data) = true)
    (hlen : (splitNl (pyStrip t)).length > 2)
    (hmid : hasPref (joinNl (((splitNl (pyStrip t)).drop 1).dropLast)) ("```json".data)
      = false) :
    parse_sloka_with_claude (.ok t) = parse_sloka_generic_only (.ok t) := by
  have h3 : hasPref (pyStrip t) ("```".data) = true := by
    rw [show ("```json".data) = ("```".data) ++ ("json".data) from rfl] at h7
    exact hasPref_of_append h7
  have hlenT : ((splitNl (pyStrip t)).length > 2) = True := eq_true hlen
  have hstrip : stripFences t = stripFencesGenericOnly t := by
    unfold stripFences stripFencesGenericOnly
    simp only [h3, eq_self_iff_true, if_true, hlenT, hmid, Bool.false_eq_true, if_false]
  unfold parse_sloka_with_claude parse_sloka_generic_only
  dsimp only
  rw [hstrip]

/-- C6 counterexample: the three-line response "```json\n```json5\n```" opens
with the ```json fence, yet after line slicing the text "```json5" still
starts with ```json, so the json-tagged check fires (dropping 7 characters)
and the parser returns the number 5, while generic-fence stripping alone
yields `{"entries": []}`. -/
theorem json_fence_redundancy_counterexample :
    hasPref (pyStrip ("```json\n```json5\n```".data)) ("```json".data) = true ∧
    (splitNl (pyStrip ("```json\n```json5\n```".data))).length > 2 ∧
    hasPref (joinNl (((splitNl (pyStrip ("```json\n```json5\n```".data))).drop 1).dropLast))
      ("```json".data) = true ∧
    parse_sloka_with_claude (.ok ("```json\n```json5\n```".data)) = JValue.num "5" ∧
    parse_sloka_generic_only (.ok ("```json\n```json5\n```".data)) = emptyEntries ∧
    JValue.num "5" ≠ emptyEntries := by
  refine ⟨by rfl, by decide, by rfl, by rfl, by rfl, ?_⟩
  intro hcon
  exact JValue.noConfusion hcon

/-- Witness for `json_fence_redundancy` on a well-behaved fenced response. -/
theorem json_fence_redundancy_witness :
    parse_sloka_with_claude (.ok ("```json\n[3]\n```".data))
      = parse_sloka_generic_only (.ok ("```json\n[3]\n```".data)) :=
  json_fence_redundancy ("```json\n[3]\n```".data) (by rfl) (by decide) (by rfl)

/-- C7 (amended): a missing input file, or a failed client construction, makes
the process exit with status 1 with no verse processed; otherwise, PROVIDED
the per-verse loop completes without an uncaught exception, the run exits
with status 0. -/
theorem exit_code_policy (oracle : String → Except PyErr (List Char))
    (data : List (String × JValue)) :
    (∀ co, runMain false co oracle data = RunOutcome.exited 1 none) ∧
    runMain true false oracle data = RunOutcome.exited 1 none ∧
    (∀ out, runDriver oracle data = .ok out →
      runMain true true oracle data = RunOutcome.exited 0 (some out)) :=
  ⟨fun _ => rfl, rfl, fun _ h => runMain_of_driver_ok h⟩

/-- C7 counterexample: input file present and client constructed, yet the run
does not exit with status 0 — a verse whose model response is the JSON array
"[1]" aborts the run with an uncaught `AttributeError`. -/
theorem exit_code_policy_counterexample :
    runMain true true (fun _ => .ok ("[1]".data)) [("v", JValue.null)]
      = RunOutcome.crashed PyErr.attributeError ∧
    (match runMain true true (fun _ => .ok ("[1]".data)) [("v", JValue.null)] with
      | RunOutcome.exited 0 _ => False
      | _ => True) := by
  exact ⟨by rfl, trivial⟩

/-- Witness for `exit_code_policy`. -/
theorem exit_code_policy_witness :
    runMain false true (fun _ => .ok []) [] = RunOutcome.exited 1 none ∧
    runMain true true (fun _ => .ok ("\x7b\"entries\": []\x7d".data)) [("v", JValue.null)]
      = RunOutcome.exited 0 (some [("v", emptyEntries)]) :=
  ⟨(exit_code_policy (fun _ => .ok []) []).1 true,
    (exit_code_policy (fun _ => .ok ("\x7b\"entries\": []\x7d".data))
      [("v", JValue.null)]).2.2 [("v", emptyEntries)] (by rfl)⟩

/-- C8: the pipeline output depends only on the keys of the input mapping and
on the model responses, never on the input mapping's values. -/
theorem metadata_ignored (oracle : String → Except PyErr (List Char))
    (ie co : Bool) (d1 d2 : List (String × JValue))
    (h : d1.map Prod.fst = d2.map Prod.fst) :
    runMain ie co oracle d1 = runMain ie co oracle d2 := by
  unfold runMain
  rw [runDriver_ignores_values h]

/-- Witness for `metadata_ignored`: same key, different metadata values. -/
theorem metadata_ignored_witness :
    runMain true true (fun _ => .ok ("\x7b\"entries\": []\x7d".data))
        [("v", JValue.null)]
      = runMain true true (fun _ => .ok ("\x7b\"entries\": []\x7d".data))
        [("v", JValue.str "old metadata")] :=
  metadata_ignored (fun _ => .ok ("\x7b\"entries\": []\x7d".data)) true true
    [("v", JValue.null)] [("v", JValue.str "old metadata")] (by rfl)

/-- C9: a model response that parses as valid JSON but not as an object is
returned unchanged by the response parser, and the driver's subsequent
`.get('entries', [])` on it raises `AttributeError` outside any handler,
aborting the entire run: the per-verse error boundary does not cover this
case. -/
theorem non_object_response_aborts (t : List Char) (v : JValue)
    (hparse : jsonParse (stripFences t) = some v)
    (hnonobj : ∀ kvs, v ≠ JValue.obj kvs)
    (oracle : String → Except PyErr (List Char))
    (pre post : List (String × JValue)) (v₀ : String) (m₀ : JValue)
    (hor : oracle v₀ = .ok t)
    (hpre : ∀ p ∈ pre, ∃ w, stepVal oracle p.1 = Except.ok w) :
    parse_sloka_with_claude (.ok t) = v ∧
    runMain true true oracle (pre ++ (v₀, m₀) :: post)
      = RunOutcome.crashed PyErr.attributeError := by
  have h1 : parse_sloka_with_claude (.ok t) = v := by
    unfold parse_sloka_with_claude
    dsimp only
    rw [hparse]
  have h2 : stepVal oracle v₀ = Except.error PyErr.attributeError := by
    unfold stepVal
    rw [hor, h1]
    exact driverStep_non_obj hnonobj
  exact ⟨h1, runMain_of_driver_err (runDriver_crash h2 m₀ hpre post)⟩

/-- Witness for `non_object_response_aborts` on the response "[1]". -/
theorem non_object_response_aborts_witness :
    parse_sloka_with_claude (.ok ("[1]".data)) = JValue.arr [JValue.num "1"] ∧
    runMain true true (fun _ => .ok ("[1]".data)) ([] ++ ("v", JValue.null) :: [])
      = RunOutcome.crashed PyErr.attributeError := by
  refine non_object_response_aborts ("[1]".data) (JValue.arr [JValue.num "1"]) (by rfl)
    ?_ (fun _ => .ok ("[1]".data)) [] [] "v" JValue.null (by rfl)
    (fun p hp => absurd hp (by simp))
  intro kvs hcon
  exact JValue.noConfusion hcon

/-- C10: for a well-formed JSON text J with no newline, the parser applied to
the single-line response "```json" ++ J ++ "```" extracts the same structure
as from J: the line-slicing branch leaves the one-line response unchanged,
and the 7-character prefix drop plus 3-character suffix drop remove both
fences before JSON parsing. -/
theorem single_line_json_fence_equiv (J : List Char) (v : JValue)
    (h : jsonParse J = some v) (hnl : '\n' ∉ J) :
    parse_sloka_with_claude (.ok (("```json".data) ++ J ++ ("```".data)))
      = parse_sloka_with_claude (.ok J) := by
  unfold parse_sloka_with_claude
  dsimp only
  rw [stripFences_jsonFence_of_wf h hnl, stripFences_of_wf h]

/-- Witness for `single_line_json_fence_equiv`. -/
theorem single_line_json_fence_equiv_witness :
    parse_sloka_with_claude (.ok (("```json".data) ++ ("\x7b\"a\": 1\x7d".data) ++ ("```".data)))
      = parse_sloka_with_claude (.ok ("\x7b\"a\": 1\x7d".data)) :=
  single_line_json_fence_equiv ("\x7b\"a\": 1\x7d".data)
    (JValue.obj [("a", JValue.num "1")]) (by rfl) (by decide)
